import Mathlib

/-!
Ring put over a symmetric heap: `nvshmem/app.cpp`

The program `main` of `src/nvshmem/app.cpp` is embedded as a term of an
instruction tree (`Prog`): every call into MPI / NVSHMEM, every store and every
output statement is one `Op`, every memory read is a `load` whose continuation
receives the value read.  C `int` is the 32-bit two's-complement integer: the
results of `my_pe * 100 + i`, `previous_pe * 100 + i` and `my_pe - 1 + npes`
wrap around (`wrap32`), `%` is the truncating remainder `Int.tmod`.  The three
`omp target teams distribute parallel for` loops run their iterations
concurrently: `parLoop` interleaves the statements of the iterations as a
schedule says, and the theorems hold for every schedule (`LoopSched`).

Two semantics are given to the tree:

* `Prog.trace` / `Prog.exitCode`: the events one PE issues, and its exit code,
  when the memory it reads after the second barrier is given by an oracle;
* `Sys.stepPE` / `Sys.deliver` / `runSched`: `npes` PEs running side by side
  under an arbitrary schedule, with one-sided puts that are applied to the
  target asynchronously and a barrier that returns only when every PE has
  arrived and earlier puts are complete.  The NVSHMEM runtime is not part of
  the sources; this semantics follows sections 4.3 to 4.5 of the
  specification.

The run of `main` on `npes >= 2` PEs is an instance of the pattern
`pre; barrier; put; barrier; post` (`skeleton`), for which an invariant is
proved (`Inv`, `inv_run`) together with the fact that every run can be
completed (`completes`).
-/

namespace GpuShmem

/-! ## Data model -/

/-- The constant of `#define N 10`. -/
def N : Nat := 10

/-- The value of `sizeof(int)`. -/
def sizeofInt : Nat := 4

/-- The two symmetric objects of `main`: `src` and `dst`. -/
inductive Buf where
  | src
  | dst
  deriving DecidableEq, Repr

/-- Where a read goes: through the PE's own symmetric pointer, or through the
pointer `nvshmem_ptr(b, pe)` resolved for another PE. -/
inductive Loc where
  | own (b : Buf)
  | remote (b : Buf) (pe : Int)
  deriving DecidableEq, Repr

/-- One statement of `main` that calls out or stores. -/
inductive Op where
  /-- Call `MPI_Init(NULL, NULL)`. -/
  | mpiInit
  /-- Call `nvshmemx_hostlib_init_attr(NVSHMEMX_INIT_WITH_MPI_COMM, &attr)`. -/
  | hostInit
  /-- Call `nvshmem_my_pe()`. -/
  | myPE
  /-- Call `nvshmem_n_pes()`. -/
  | numPEs
  /-- Statement `std::cerr << "This example requires at least two PEs."`. -/
  | diag
  /-- Call `b = nvshmem_malloc(bytes)`. -/
  | allocate (b : Buf) (bytes : Nat)
  /-- Store `b[i] = v`. -/
  | write (b : Buf) (i : Nat) (v : Int)
  /-- Call `nvshmem_barrier_all()`. -/
  | barrierAll
  /-- Call `nvshmem_int_put(dest, source, count, pe)`. -/
  | put (dest source : Buf) (count : Nat) (pe : Int)
  /-- Call `nvshmem_ptr(b, pe)`. -/
  | resolve (b : Buf) (pe : Int)
  /-- Statement `printf("[ERROR] Target PE %d validation check failed ...")`. -/
  | printErrTarget (pe : Int) (i : Nat) (expected got : Int)
  /-- Statement `printf("[ERROR] My PE %d validation check failed ...")`. -/
  | printErrMine (pe : Int) (i : Nat) (expected got : Int)
  /-- Statement `std::cout << "[SUCCESS] Data transfer verified on all PEs."`. -/
  | printSuccess
  /-- Call `nvshmem_free(b)`. -/
  | free (b : Buf)
  /-- Call `nvshmemx_hostlib_finalize()`. -/
  | finalize
  /-- Call `MPI_Finalize()`. -/
  | mpiFinalize
  deriving DecidableEq, Repr

/-- Instruction tree of a PE: return with an exit code, perform an `Op` and
continue, or read `l[i]` and continue with the value. -/
inductive Prog where
  | ret (code : Int)
  | op (o : Op) (k : Prog)
  | load (l : Loc) (i : Nat) (k : Int → Prog)

/-- An observable event of one PE. -/
inductive Ev where
  | call (o : Op)
  | load (l : Loc) (i : Nat) (v : Int)
  deriving DecidableEq, Repr

/-! ## The program -/

/-- The value a 32-bit `int` holds after an arithmetic result `x`:
two's-complement wrap-around into `[-2^31, 2^31)`. -/
def wrap32 (x : Int) : Int := (x + 2147483648) % 4294967296 - 2147483648

/-- The expression `p * 100 + i` in `int` arithmetic (lines 33, 55, 58, 67, 70). -/
def pattern (p : Int) (i : Nat) : Int := wrap32 (wrap32 (p * 100) + i)

/-- The expression `(my_pe + 1) % npes` (line 42). For a PE of the run,
`my_pe + 1 <= npes <= INT_MAX`, so the sum is the mathematical one. -/
def target_pe (my_pe npes : Int) : Int := (my_pe + 1).tmod npes

/-- The expression `(my_pe - 1 + npes) % npes` in `int` arithmetic (line 64). -/
def previous_pe (my_pe npes : Int) : Int := (wrap32 (wrap32 (my_pe - 1) + npes)).tmod npes

/-- One iteration of a loop, statement by statement: nothing left, an
operation and the rest, or a read and the rest for the value read. -/
inductive Thread where
  | done
  | op (o : Op) (t : Thread)
  | load (l : Loc) (i : Nat) (k : Int → Thread)

/-- An iteration run to its end, then `k`. -/
def Thread.run : Thread → Prog → Prog
  | .done, k => k
  | .op o t, k => .op o (t.run k)
  | .load l i f, k => .load l i fun v => (f v).run k

/-- The iterations `i, i + 1, ..., i + n - 1` one after the other, then `k`. -/
def forLoop (body : Nat → Thread) : Nat → Nat → Prog → Prog
  | 0, _, k => k
  | n + 1, i, k => (body i).run (forLoop body n (i + 1) k)

/-- The loop `#pragma omp target teams distribute parallel for` over
`for (int i = 0; i < n; ++i) body(i);`, followed by `k`. The iterations run
concurrently: `sched` lists, statement by statement, the iteration that
advances next (an entry that names no iteration, or a finished one, is
skipped); the iterations still unfinished when `sched` is used up run to their
end in index order. Every interleaving of the statements of the iterations is
the loop under some `sched`. -/
def parLoop (n : Nat) : List Nat → (Nat → Thread) → Prog → Prog
  | [], body, k => forLoop body n 0 k
  | j :: sched, body, k =>
    if j < n then
      match body j with
      | .done => parLoop n sched body k
      | .op o t => .op o (parLoop n sched (Function.update body j t) k)
      | .load l i f => .load l i fun v => parLoop n sched (Function.update body j (f v)) k
    else parLoop n sched body k

/-- The interleavings of the three parallel loops of `main`: of the
initialisation loop, of the validation loop on the target's `dst`, and of the
validation loop on the PE's own `dst`. -/
structure LoopSched where
  init : List Nat
  target : List Nat
  mine : List Nat

/-- The interleaving in which every loop runs its iterations in index order. -/
def LoopSched.inOrder : LoopSched := { init := [], target := [], mine := [] }

/-- Iteration `i` of the initialisation loop: `src[i] = my_pe * 100 + i; dst[i] = -1;`. -/
def initThread (my_pe : Int) (i : Nat) : Thread :=
  .op (.write .src i (pattern my_pe i)) <| .op (.write .dst i (-1)) .done

/-- Iteration `i` of the first validation loop, on
`target_dst = nvshmem_ptr(dst, target_pe)`. -/
def checkTargetThread (my_pe npes : Int) (i : Nat) : Thread :=
  .load (.remote .dst (target_pe my_pe npes)) i fun v =>
    if v ≠ pattern my_pe i then
      .load (.remote .dst (target_pe my_pe npes)) i fun got =>
        .op (.printErrTarget (target_pe my_pe npes) i (pattern my_pe i) got) .done
    else .done

/-- Iteration `i` of the second validation loop, on the PE's own `dst`. -/
def checkMineThread (my_pe npes : Int) (i : Nat) : Thread :=
  .load (.own .dst) i fun v =>
    if v ≠ pattern (previous_pe my_pe npes) i then
      .load (.own .dst) i fun got =>
        .op (.printErrMine my_pe i (pattern (previous_pe my_pe npes) i) got) .done
    else .done

/-- Lines 74 to 84: the success message, the frees, finalize, `return 0`. -/
def epilogue (my_pe : Int) : Prog :=
  (if my_pe = 0 then Prog.op .printSuccess else id) <|
  .op (.free .src) <| .op (.free .dst) <| .op .finalize <| .op .mpiFinalize <| .ret 0

/-- Lines 50 to 84: everything after the second barrier. -/
def afterSecondBarrier (my_pe npes : Int) (σ : LoopSched) : Prog :=
  .op (.resolve .dst (target_pe my_pe npes)) <|
  parLoop N σ.target (checkTargetThread my_pe npes) <|
  parLoop N σ.mine (checkMineThread my_pe npes) <|
  epilogue my_pe

/-- Lines 38 to 84: first barrier, put, second barrier, validation, teardown. -/
def fromFirstBarrier (my_pe npes : Int) (σ : LoopSched) : Prog :=
  .op .barrierAll <|
  .op (.put .dst .src N (target_pe my_pe npes)) <|
  .op .barrierAll <|
  afterSecondBarrier my_pe npes σ

/-- The function `main` of `app.cpp`, for the PE whose `nvshmem_my_pe()` is
`my_pe` in a run where `nvshmem_n_pes()` is `npes`, when its parallel loops
interleave as `σ` says. -/
def main (my_pe npes : Int) (σ : LoopSched) : Prog :=
  .op .mpiInit <| .op .hostInit <| .op .myPE <| .op .numPEs <|
  if npes < 2 then
    .op .diag <| .op .finalize <| .ret 1
  else
    .op (.allocate .src (N * sizeofInt)) <|
    .op (.allocate .dst (N * sizeofInt)) <|
    parLoop N σ.init (initThread my_pe) <|
    fromFirstBarrier my_pe npes σ

/-! ## One PE against a memory oracle -/

/-- Events issued by a program when every read `l[i]` returns `M l i`. -/
def Prog.trace (M : Loc → Nat → Int) : Prog → List Ev
  | .ret _ => []
  | .op o k => .call o :: k.trace M
  | .load l i k => .load l i (M l i) :: (k (M l i)).trace M

/-- Exit code of a program when every read `l[i]` returns `M l i`. -/
def Prog.exitCode (M : Loc → Nat → Int) : Prog → Int
  | .ret c => c
  | .op _ k => k.exitCode M
  | .load l i k => (k (M l i)).exitCode M

/-- Events that are neither MPI calls nor output statements: the calls into
the symmetric-memory runtime and the accesses to symmetric memory. -/
def Ev.isRuntime : Ev → Bool
  | .call .mpiInit => false
  | .call .mpiFinalize => false
  | .call .diag => false
  | .call (.printErrTarget ..) => false
  | .call (.printErrMine ..) => false
  | .call .printSuccess => false
  | _ => true

/-- Collective calls of the runtime: init, allocate, barrier, free, finalize. -/
def Ev.isCollective : Ev → Bool
  | .call .hostInit => true
  | .call (.allocate ..) => true
  | .call .barrierAll => true
  | .call (.free _) => true
  | .call .finalize => true
  | _ => false

/-- An `[ERROR]` line of either validation loop. -/
def Ev.isError : Ev → Bool
  | .call (.printErrTarget ..) => true
  | .call (.printErrMine ..) => true
  | _ => false

/-- Event `e` reads, writes, transfers or resolves the PE's symmetric object `b`. -/
def Ev.touches (b : Buf) : Ev → Bool
  | .call (.write b' _ _) => b' = b
  | .call (.put d s _ _) => d = b || s = b
  | .call (.resolve b' _) => b' = b
  | .load (.own b') _ _ => b' = b
  | .load (.remote b' _) _ _ => b' = b
  | _ => false

/-- Symmetric objects allocated and not yet freed after a sequence of events
(most recent first). -/
def liveAfter : List Ev → List Buf → List Buf
  | [], live => live
  | .call (.allocate b _) :: es, live => liveAfter es (b :: live)
  | .call (.free b) :: es, live => liveAfter es (live.erase b)
  | _ :: es, live => liveAfter es live

/-- Offsets recorded for the allocations of a trace by an allocator given as a
parameter: `alloc st bytes` is the offset handed out in allocator state `st`
and the state after it, `release st b` the state after a free. The allocator
itself is not part of the sources. -/
def heapOffsets {σ : Type} (alloc : σ → Nat → Nat × σ) (release : σ → Buf → σ) :
    List Ev → σ → List (Buf × Nat)
  | [], _ => []
  | .call (.allocate b bytes) :: es, st =>
    (b, (alloc st bytes).1) :: heapOffsets alloc release es (alloc st bytes).2
  | .call (.free b) :: es, st => heapOffsets alloc release es (release st b)
  | _ :: es, st => heapOffsets alloc release es st

/-- Modelled from the spec: the allocation policy of the Symmetric Heap
Allocator (4.2), absent from the sources: the offset is the cursor, which
then advances by the requested size. -/
def cursorAlloc (cursor bytes : Nat) : Nat × Nat := (cursor, cursor + bytes)

/-- Modelled from the spec: `free` of the Symmetric Heap Allocator (3, Heap
state), absent from the sources: the heap is append-only, a free leaves the
cursor where it is. -/
def cursorFree (cursor : Nat) (_b : Buf) : Nat := cursor

/-- Events of an iteration run to its end when every read `l[i]` returns `M l i`. -/
def Thread.events (M : Loc → Nat → Int) : Thread → List Ev
  | .done => []
  | .op o t => .call o :: t.events M
  | .load l i f => .load l i (M l i) :: (f (M l i)).events M

/-- Events of a loop whose iteration `i` issues `seg i`: iterations
`i0, i0 + 1, ..., i0 + n - 1` in order. -/
def loopEvents (seg : Nat → List Ev) : Nat → Nat → List Ev
  | 0, _ => []
  | n + 1, i => seg i ++ loopEvents seg n (i + 1)

/-- Events of a parallel loop interleaved as `sched` says, when every read
`l[i]` returns `M l i`. -/
def parEvents (M : Loc → Nat → Int) (n : Nat) : List Nat → (Nat → Thread) → List Ev
  | [], body => loopEvents (fun i => (body i).events M) n 0
  | j :: sched, body =>
    if j < n then
      match body j with
      | .done => parEvents M n sched body
      | .op o t => .call o :: parEvents M n sched (Function.update body j t)
      | .load l i f =>
        .load l i (M l i) :: parEvents M n sched (Function.update body j (f (M l i)))
    else parEvents M n sched body

/-- Events of iteration `i` of the initialisation loop. -/
def initEvents (my_pe : Int) (i : Nat) : List Ev :=
  [.call (.write .src i (pattern my_pe i)), .call (.write .dst i (-1))]

/-- Events of iteration `i` of the first validation loop under oracle `M`. -/
def checkTargetEvents (M : Loc → Nat → Int) (my_pe npes : Int) (i : Nat) : List Ev :=
  if M (.remote .dst (target_pe my_pe npes)) i ≠ pattern my_pe i then
    [.load (.remote .dst (target_pe my_pe npes)) i (M (.remote .dst (target_pe my_pe npes)) i),
     .load (.remote .dst (target_pe my_pe npes)) i (M (.remote .dst (target_pe my_pe npes)) i),
     .call (.printErrTarget (target_pe my_pe npes) i (pattern my_pe i)
        (M (.remote .dst (target_pe my_pe npes)) i))]
  else
    [.load (.remote .dst (target_pe my_pe npes)) i (M (.remote .dst (target_pe my_pe npes)) i)]

/-- Events of iteration `i` of the second validation loop under oracle `M`. -/
def checkMineEvents (M : Loc → Nat → Int) (my_pe npes : Int) (i : Nat) : List Ev :=
  if M (.own .dst) i ≠ pattern (previous_pe my_pe npes) i then
    [.load (.own .dst) i (M (.own .dst) i),
     .load (.own .dst) i (M (.own .dst) i),
     .call (.printErrMine my_pe i (pattern (previous_pe my_pe npes) i) (M (.own .dst) i))]
  else
    [.load (.own .dst) i (M (.own .dst) i)]

/-- Reads of iteration `i` of the first validation loop under oracle `M`: one
for the comparison, one more for the message when the comparison fails. -/
def targetReads (M : Loc → Nat → Int) (my_pe npes : Int) (i : Nat) : List Ev :=
  List.replicate (if M (.remote .dst (target_pe my_pe npes)) i ≠ pattern my_pe i then 2 else 1)
    (.load (.remote .dst (target_pe my_pe npes)) i (M (.remote .dst (target_pe my_pe npes)) i))

/-- Reads of iteration `i` of the second validation loop under oracle `M`. -/
def mineReads (M : Loc → Nat → Int) (my_pe npes : Int) (i : Nat) : List Ev :=
  List.replicate (if M (.own .dst) i ≠ pattern (previous_pe my_pe npes) i then 2 else 1)
    (.load (.own .dst) i (M (.own .dst) i))

/-- A call of `nvshmem_malloc`. -/
def Ev.isAllocate : Ev → Bool
  | .call (.allocate ..) => true
  | _ => false

/-- A call of `nvshmem_free`. -/
def Ev.isFree : Ev → Bool
  | .call (.free _) => true
  | _ => false

/-! ## The PEs side by side

Modelled from the spec (sections 4.4, 4.5 and 5): the runtime itself is not
part of the sources, only its caller is. -/

/-- Modelled from the spec: a put handed to the transport (4.4). The runtime
is absent from the sources. `data` is the snapshot of the source buffer taken
when the call returns ("returns once the local source buffer may be reused"),
`epoch` the number of `barrierAll` calls the issuing PE had made before. -/
structure Transfer where
  source : Nat
  target : Nat
  buf : Buf
  data : List Int
  epoch : Nat
  deriving DecidableEq, Repr

/-- State of one PE: the rest of its program, its copy of the symmetric
objects, how many times it has called `barrierAll`, whether it is blocked in
that call, and the events it has issued so far (oldest first). -/
structure PEState where
  prog : Prog
  mem : Buf → Nat → Int
  arrived : Nat
  waiting : Bool
  log : List Ev

/-- Number of `barrierAll` calls of a PE that have returned. -/
def PEState.returned (st : PEState) : Nat :=
  if st.waiting then st.arrived - 1 else st.arrived

/-- State of the run: the PEs, the puts in flight, and every put issued so far. -/
structure Sys where
  npes : Nat
  pe : Nat → PEState
  inflight : List Transfer
  issued : List Transfer

/-- Memory after a transfer's data lands at the start of a buffer. -/
def applyData (data : List Int) (m : Nat → Int) : Nat → Int :=
  fun i => (data[i]?).getD (m i)

/-- Replace the state of PE `p`. -/
def Sys.setPE (s : Sys) (p : Nat) (st : PEState) : Sys :=
  { s with pe := Function.update s.pe p st }

/-- Modelled from the spec: the release condition of `barrierAll` (4.5), absent
from the sources. The `k`-th call returns only when every PE has made its
`k`-th call and every put issued before the issuer's `k`-th call is complete. -/
def Sys.canRelease (s : Sys) (k : Nat) : Bool :=
  (List.range s.npes).all (fun q => decide (k ≤ (s.pe q).arrived)) &&
    s.inflight.all (fun t => decide (k ≤ t.epoch))

/-- Effect of a local operation on the PE's own memory. -/
def execOp (m : Buf → Nat → Int) : Op → Buf → Nat → Int
  | .write b i v => Function.update m b (Function.update (m b) i v)
  | _ => m

/-- The PE after a local operation `o`: stores take effect on its own memory,
other calls leave it alone. -/
def PEState.afterOp (st : PEState) (o : Op) (k : Prog) : PEState :=
  { st with prog := k, mem := execOp st.mem o, log := st.log ++ [.call o] }

/-- The PE after reading the value `v` at `l[i]`. -/
def PEState.afterLoad (st : PEState) (l : Loc) (i : Nat) (v : Int) (k : Int → Prog) : PEState :=
  { st with prog := k v, log := st.log ++ [.load l i v] }

/-- The PE blocked in a new call of `barrierAll`. -/
def PEState.enterBarrier (st : PEState) (k : Prog) : PEState :=
  { st with prog := k, arrived := st.arrived + 1, waiting := true,
            log := st.log ++ [.call .barrierAll] }

/-- The PE returned from `barrierAll`. -/
def PEState.leaveBarrier (st : PEState) : PEState :=
  { st with waiting := false }

/-- The put `nvshmem_int_put(d, sb, n, pe)` as PE `p` hands it to the transport. -/
def Sys.newTransfer (s : Sys) (p : Nat) (d sb : Buf) (n : Nat) (pe : Int) : Transfer :=
  { source := p, target := pe.toNat, buf := d,
    data := (List.range n).map ((s.pe p).mem sb), epoch := (s.pe p).arrived }

/-- The run after PE `p` issued `nvshmem_int_put(d, sb, n, pe)`. -/
def Sys.issue (s : Sys) (p : Nat) (d sb : Buf) (n : Nat) (pe : Int) (k : Prog) : Sys :=
  { s.setPE p ((s.pe p).afterOp (.put d sb n pe) k) with
    inflight := s.inflight ++ [s.newTransfer p d sb n pe]
    issued := s.issued ++ [s.newTransfer p d sb n pe] }

/-- Modelled from the spec: one step of PE `p` against the runtime (4.2 to 4.5),
absent from the sources. A blocked PE is released when `canRelease` holds; a
put to a PE in `[0, npes)` snapshots the source and joins the puts in flight;
a read through a resolved pointer reads the target's memory; a store changes
the PE's own memory; other calls only advance the program. A step that is not
enabled leaves the state as it is. -/
def Sys.stepPE (s : Sys) (p : Nat) : Sys :=
  if p < s.npes then
    if (s.pe p).waiting then
      if s.canRelease (s.pe p).arrived then s.setPE p (s.pe p).leaveBarrier else s
    else
      match (s.pe p).prog with
      | .ret _ => s
      | .op .barrierAll k => s.setPE p ((s.pe p).enterBarrier k)
      | .op (.put d sb n pe) k =>
        if 0 ≤ pe ∧ pe < s.npes then s.issue p d sb n pe k else s
      | .op o k => s.setPE p ((s.pe p).afterOp o k)
      | .load (.own b) i k =>
        s.setPE p ((s.pe p).afterLoad (.own b) i ((s.pe p).mem b i) k)
      | .load (.remote b pe) i k =>
        if 0 ≤ pe ∧ pe < s.npes then
          s.setPE p ((s.pe p).afterLoad (.remote b pe) i ((s.pe pe.toNat).mem b i) k)
        else s
  else s

/-- The PE after the data of a put landed in its buffer `b`. -/
def PEState.receive (st : PEState) (b : Buf) (data : List Int) : PEState :=
  { st with mem := Function.update st.mem b (applyData data (st.mem b)) }

/-- Modelled from the spec: completion of the `j`-th put in flight (4.4), absent
from the sources: its data lands in the target's buffer and it leaves the
transport. Puts complete in any order, at any time after they were issued. -/
def Sys.deliver (s : Sys) (j : Nat) : Sys :=
  match s.inflight[j]? with
  | none => s
  | some t =>
    { s.setPE t.target ((s.pe t.target).receive t.buf t.data) with
      inflight := s.inflight.eraseIdx j }

/-- What the scheduler can pick next: a step of PE `p`, or completion of the
`j`-th put in flight. -/
inductive Action where
  | step (p : Nat)
  | deliver (j : Nat)
  deriving DecidableEq, Repr

/-- Effect of one scheduling decision. -/
def Sys.act (s : Sys) : Action → Sys
  | .step p => s.stepPE p
  | .deliver j => s.deliver j

/-- The run under a schedule: an interleaving of the PEs and the transport. -/
def runSched (sched : List Action) (s : Sys) : Sys :=
  sched.foldl Sys.act s

/-- Start of a run of `npes` PEs: PE `p` is about to execute `progs p` on
memory `mem0 p`; nothing is in flight. -/
def Sys.init (npes : Nat) (progs : Nat → Prog) (mem0 : Nat → Buf → Nat → Int) : Sys :=
  { npes := npes
    pe := fun p => { prog := progs p, mem := mem0 p, arrived := 0, waiting := false, log := [] }
    inflight := []
    issued := [] }

/-- The run of `app.cpp` on `npes` PEs whose symmetric heaps initially hold
`mem0` and whose parallel loops interleave, on PE `p`, as `σ p` says. -/
def mainSys (npes : Nat) (mem0 : Nat → Buf → Nat → Int) (σ : Nat → LoopSched) : Sys :=
  Sys.init npes (fun p => main p npes (σ p)) mem0

/-! ## The barrier / put / barrier pattern of lines 37 to 48 -/

/-- Straight-line code: the operations `ops` in order, then `k`. -/
def Prog.seq : List Op → Prog → Prog
  | [], k => k
  | o :: os, k => .op o (Prog.seq os k)

/-- Operations that neither synchronise nor transfer. -/
def Op.isLocal : Op → Bool
  | .barrierAll => false
  | .put .. => false
  | _ => true

/-- Operations that leave symmetric memory and the barrier alone. -/
def Op.isQuiet : Op → Bool
  | .barrierAll => false
  | .put .. => false
  | .write .. => false
  | _ => true

/-- A read that stays inside a run of `n` PEs: through the PE's own pointer,
or through a pointer resolved for a PE of `[0, n)`. -/
def Loc.inRange (n : Nat) : Loc → Prop
  | .own _ => True
  | .remote _ pe => 0 ≤ pe ∧ pe < n

/-- A program that only reads, inside a run of `n` PEs, and calls quiet
operations. -/
def Prog.quiet (n : Nat) : Prog → Prop
  | .ret _ => True
  | .op o k => o.isQuiet = true ∧ k.quiet n
  | .load l _ k => l.inRange n ∧ ∀ v, (k v).quiet n

/-- Lines 37 to 48 with arbitrary local code `pre` before and arbitrary code
`post` after: `pre; barrier; put(dst, src, N, (my_pe + 1) % npes); barrier; post`. -/
def skeleton (pre : List Op) (my_pe npes : Int) (post : Prog) : Prog :=
  Prog.seq pre <|
  .op .barrierAll <|
  .op (.put .dst .src N (target_pe my_pe npes)) <|
  .op .barrierAll <|
  post

/-- Effect of straight-line local code on the PE's own memory. -/
def execOps (ops : List Op) (m : Buf → Nat → Int) : Buf → Nat → Int :=
  ops.foldl execOp m

/-- Operations of a read-free iteration. -/
def Thread.ops : Thread → List Op
  | .done => []
  | .op o t => o :: t.ops
  | .load _ _ _ => []

/-- An iteration that does not read. -/
def Thread.straight : Thread → Prop
  | .done => True
  | .op _ t => t.straight
  | .load _ _ _ => False

/-- Operations of the read-free iterations `i, ..., i + n - 1` in index order. -/
def loopOps (body : Nat → Thread) : Nat → Nat → List Op
  | 0, _ => []
  | n + 1, i => (body i).ops ++ loopOps body n (i + 1)

/-- Operations of a parallel loop of read-free iterations interleaved as
`sched` says. -/
def parOps (n : Nat) : List Nat → (Nat → Thread) → List Op
  | [], body => loopOps body n 0
  | j :: sched, body =>
    if j < n then
      match body j with
      | .done => parOps n sched body
      | .op o t => o :: parOps n sched (Function.update body j t)
      | .load _ _ _ => parOps n sched body
    else parOps n sched body

/-- An iteration that only reads, inside a run of `m` PEs, and calls quiet
operations. -/
def Thread.quiet (m : Nat) : Thread → Prop
  | .done => True
  | .op o t => o.isQuiet = true ∧ t.quiet m
  | .load l _ f => l.inRange m ∧ ∀ v, (f v).quiet m

/-- Everything `main` does before the first barrier when `npes >= 2` and the
initialisation loop interleaves as `sched` says. -/
def mainPre (my_pe : Int) (sched : List Nat) : List Op :=
  [.mpiInit, .hostInit, .myPE, .numPEs,
   .allocate .src (N * sizeofInt), .allocate .dst (N * sizeofInt)] ++
  parOps N sched (initThread my_pe)

/-- Schedule fragment: `n` consecutive steps of PE `p`. -/
def steps (p n : Nat) : List Action := List.replicate n (.step p)

/-- A run of the pattern: the number of PEs, each PE's local code before the
first barrier and code after the second, and the initial heap contents. -/
structure Setup where
  npes : Nat
  pre : Nat → List Op
  post : Nat → Prog
  mem0 : Nat → Buf → Nat → Int

/-- The code before the first barrier is local, the code after the second is quiet. -/
structure Setup.Valid (c : Setup) : Prop where
  pre_local : ∀ p, ∀ o ∈ c.pre p, o.isLocal = true
  post_quiet : ∀ p < c.npes, (c.post p).quiet c.npes

/-- Program of PE `p`. -/
def Setup.progOf (c : Setup) (p : Nat) : Prog :=
  skeleton (c.pre p) p c.npes (c.post p)

/-- Start state of the run. -/
def Setup.start (c : Setup) : Sys := Sys.init c.npes c.progOf c.mem0

/-- Memory of PE `p` when it calls the first barrier. -/
def Setup.atBarrier (c : Setup) (p : Nat) : Buf → Nat → Int :=
  execOps (c.pre p) (c.mem0 p)

/-- The `N` elements of `src` that PE `p` puts. -/
def Setup.dataOf (c : Setup) (p : Nat) : List Int :=
  (List.range N).map (c.atBarrier p .src)

/-- The PE that `p` puts to. -/
def Setup.next (c : Setup) (p : Nat) : Nat := (target_pe p c.npes).toNat

/-- The PE that puts to `q`: its predecessor on the ring. -/
def Setup.prev (c : Setup) (q : Nat) : Nat := if q = 0 then c.npes - 1 else q - 1

/-- The put of PE `p`. -/
def Setup.transfer (c : Setup) (p : Nat) : Transfer :=
  { source := p, target := c.next p, buf := .dst, data := c.dataOf p, epoch := 1 }

/-- Memory of PE `q` once the put aimed at it is complete. -/
def Setup.final (c : Setup) (q : Nat) : Buf → Nat → Int
  | .src => c.atBarrier q .src
  | .dst => applyData (c.dataOf (c.prev q)) (c.atBarrier q .dst)

/-- What PE `p` reads after the second barrier. -/
def Setup.oracle (c : Setup) (_p : Nat) : Loc → Nat → Int
  | .own b => c.final _p b
  | .remote b pe => c.final pe.toNat b

/-- Program of PE `p` from its put on. -/
def Setup.fromPut (c : Setup) (p : Nat) : Prog :=
  .op (.put .dst .src N (target_pe p c.npes)) <| .op .barrierAll <| c.post p

/-- The run of `app.cpp` as an instance of the pattern. -/
def mainSetup (npes : Nat) (mem0 : Nat → Buf → Nat → Int) (σ : Nat → LoopSched) : Setup :=
  { npes := npes
    pre := fun p => mainPre p (σ p).init
    post := fun p => afterSecondBarrier p npes (σ p)
    mem0 := mem0 }

/-- What is known of PE `p` at every moment of a run of the pattern, by the
number of barrier calls it has made: before the first it has executed a
prefix of its local code; between the two it is at the put or just past it;
after the second call only quiet code remains. Its log followed by the trace
of the rest of its program is the trace of its whole program, and the rest of
its program returns what the whole program returns. -/
structure PEInv (c : Setup) (issued : List Transfer) (st : PEState) (p : Nat) : Prop where
  le2 : st.arrived ≤ 2
  ph0 : st.arrived = 0 → st.waiting = false ∧ c.transfer p ∉ issued ∧
    ∃ j, j ≤ (c.pre p).length ∧
      st.prog = Prog.seq ((c.pre p).drop j) (.op .barrierAll (c.fromPut p)) ∧
      st.mem = execOps ((c.pre p).take j) (c.mem0 p)
  ph1 : st.arrived = 1 →
    (c.transfer p ∉ issued ∧ st.prog = c.fromPut p) ∨
    (c.transfer p ∈ issued ∧ st.prog = .op .barrierAll (c.post p) ∧ st.waiting = false)
  ph2 : st.arrived = 2 → c.transfer p ∈ issued ∧ st.prog.quiet c.npes
  mem : 1 ≤ st.arrived → st.mem .src = c.atBarrier p .src ∧
    (st.mem .dst = c.atBarrier p .dst ∨ st.mem .dst = c.final p .dst)
  log : st.log ++ st.prog.trace (c.oracle p) = (c.progOf p).trace (c.oracle p)
  exit : st.prog.exitCode (c.oracle p) = (c.progOf p).exitCode (c.oracle p)

/-- Invariant of a run of the pattern. -/
structure Inv (c : Setup) (s : Sys) : Prop where
  npes : s.npes = c.npes
  pe : ∀ p < c.npes, PEInv c s.issued (s.pe p) p
  infl : ∀ t ∈ s.inflight, t ∈ s.issued
  iss : ∀ t ∈ s.issued, ∃ p < c.npes, t = c.transfer p
  done : ∀ p < c.npes, c.transfer p ∈ s.issued →
    c.transfer p ∈ s.inflight ∨ (s.pe (c.next p)).mem .dst = c.final (c.next p) .dst
  rel1 : ∀ p < c.npes,
    ((s.pe p).arrived = 1 ∧ (s.pe p).waiting = false ∨ (s.pe p).arrived = 2) →
    ∀ q < c.npes, 1 ≤ (s.pe q).arrived
  rel2 : ∀ p < c.npes, (s.pe p).arrived = 2 → (s.pe p).waiting = false →
    (∀ q < c.npes, (s.pe q).arrived = 2) ∧ s.inflight = []

/-- Interleavings of the parallel loops used in the examples: on even PEs the
initialisation loop starts with iterations 9 and 3 alternating and the
validation loops run backwards; odd PEs run in index order. -/
def demoLoops (p : Nat) : LoopSched :=
  if p % 2 = 0 then
    { init := [9, 3, 9, 12, 3, 0, 9, 5], target := [9, 8, 7, 6, 5, 4, 3, 2, 1, 0],
      mine := [4, 4, 4, 2] }
  else LoopSched.inOrder

/-- A schedule for four PEs running `main`: every PE runs up to the first
barrier, every PE is released, puts and enters the second barrier, the four
puts complete, every PE runs to its `return`. -/
def demoSchedule : List Action :=
  steps 0 27 ++ steps 1 27 ++ steps 2 27 ++ steps 3 27 ++
  steps 0 3 ++ steps 1 3 ++ steps 2 3 ++ steps 3 3 ++
  [.deliver 3, .deliver 0, .deliver 1, .deliver 0] ++
  steps 0 40 ++ steps 1 40 ++ steps 2 40 ++ steps 3 40

/-- A run of the pattern on two PEs whose local code stores arbitrary values:
PE `p` stores `41 + p` and `-7` at the start of `src`. -/
def demoSetup : Setup :=
  { npes := 2
    pre := fun p => [.write .src 0 (41 + p), .write .src 1 (-7), .write .dst 0 5]
    post := fun _ => .load (.own .dst) 0 fun _ => .ret 0
    mem0 := fun _ _ i => 1000 + i }

/-- A schedule of `demoSetup` in which the put of PE 1 completes before PE 0
has put, and PE 0 returns from the second barrier. -/
def demoSetupSchedule : List Action :=
  steps 1 4 ++ steps 0 4 ++ steps 1 3 ++ [.deliver 0] ++ steps 0 3 ++ [.deliver 0] ++ steps 0 1

/-- Work left for PE `p` in state `st`: two units for each event it still has
to issue, one more while it is blocked in a barrier. -/
def Setup.peWork (c : Setup) (p : Nat) (st : PEState) : Nat :=
  2 * (st.prog.trace (c.oracle p)).length + (if st.waiting then 1 else 0)

/-- Work left in the run: that of the PEs, and one unit for each put in flight. -/
def Setup.work (c : Setup) (s : Sys) : Nat :=
  Finset.sum (Finset.range c.npes) (fun q => c.peWork q (s.pe q)) + s.inflight.length

/-- Every one of the first `n` PEs has returned from its program. -/
def Sys.finished (s : Sys) (n : Nat) : Prop :=
  ∀ p < n, (s.pe p).waiting = false ∧ ∃ code, (s.pe p).prog = .ret code

/-! ## Lemmas on traces -/

theorem trace_ret (M : Loc → Nat → Int) (c : Int) : (Prog.ret c).trace M = [] := rfl

theorem trace_op (M : Loc → Nat → Int) (o : Op) (k : Prog) :
    (Prog.op o k).trace M = .call o :: k.trace M := rfl

theorem trace_load (M : Loc → Nat → Int) (l : Loc) (i : Nat) (k : Int → Prog) :
    (Prog.load l i k).trace M = .load l i (M l i) :: (k (M l i)).trace M := rfl

theorem exitCode_ret (M : Loc → Nat → Int) (c : Int) : (Prog.ret c).exitCode M = c := rfl

theorem exitCode_op (M : Loc → Nat → Int) (o : Op) (k : Prog) :
    (Prog.op o k).exitCode M = k.exitCode M := rfl

theorem exitCode_load (M : Loc → Nat → Int) (l : Loc) (i : Nat) (k : Int → Prog) :
    (Prog.load l i k).exitCode M = (k (M l i)).exitCode M := rfl

theorem trace_run (M : Loc → Nat → Int) (t : Thread) (k : Prog) :
    (t.run k).trace M = t.events M ++ k.trace M := by
  induction t with
  | done => rfl
  | op o t ih => simp [Thread.run, Thread.events, trace_op, ih]
  | load l i f ih => simp [Thread.run, Thread.events, trace_load, ih]

theorem exitCode_run (M : Loc → Nat → Int) (t : Thread) (k : Prog) :
    (t.run k).exitCode M = k.exitCode M := by
  induction t with
  | done => rfl
  | op o t ih => simp [Thread.run, exitCode_op, ih]
  | load l i f ih => simp [Thread.run, exitCode_load, ih]

theorem trace_forLoop (M : Loc → Nat → Int) (body : Nat → Thread) (n i : Nat) (k : Prog) :
    (forLoop body n i k).trace M = loopEvents (fun j => (body j).events M) n i ++ k.trace M := by
  induction n generalizing i with
  | zero => simp [forLoop, loopEvents]
  | succ n ih => simp [forLoop, loopEvents, trace_run, ih]

theorem exitCode_forLoop (M : Loc → Nat → Int) (body : Nat → Thread) (n i : Nat) (k : Prog) :
    (forLoop body n i k).exitCode M = k.exitCode M := by
  induction n generalizing i with
  | zero => simp [forLoop]
  | succ n ih => simp [forLoop, exitCode_run, ih]

theorem trace_parLoop (M : Loc → Nat → Int) (n : Nat) (sched : List Nat) (body : Nat → Thread)
    (k : Prog) : (parLoop n sched body k).trace M = parEvents M n sched body ++ k.trace M := by
  induction sched generalizing body with
  | nil => exact trace_forLoop M body n 0 k
  | cons j sched ih =>
    unfold parLoop parEvents
    by_cases hj : j < n
    · rw [if_pos hj, if_pos hj]
      cases hb : body j with
      | done => exact ih body
      | op o t => simp only [trace_op, ih, List.cons_append]
      | load l i f => simp only [trace_load, ih, List.cons_append]
    · rw [if_neg hj, if_neg hj]
      exact ih body

theorem exitCode_parLoop (M : Loc → Nat → Int) (n : Nat) (sched : List Nat)
    (body : Nat → Thread) (k : Prog) :
    (parLoop n sched body k).exitCode M = k.exitCode M := by
  induction sched generalizing body with
  | nil => exact exitCode_forLoop M body n 0 k
  | cons j sched ih =>
    unfold parLoop
    by_cases hj : j < n
    · rw [if_pos hj]
      cases hb : body j with
      | done => exact ih body
      | op o t => simp only [exitCode_op, ih]
      | load l i f => simp only [exitCode_load, ih]
    · rw [if_neg hj]
      exact ih body

/-! ## A parallel loop issues the events of its iterations, in some order -/

theorem loopEvents_congr {seg seg' : Nat → List Ev} {n i : Nat}
    (h : ∀ j, i ≤ j → j < i + n → seg j = seg' j) : loopEvents seg n i = loopEvents seg' n i := by
  induction n generalizing i with
  | zero => rfl
  | succ n ih =>
    simp only [loopEvents]
    rw [h i (Nat.le_refl _) (by omega), ih (fun j h1 h2 => h j (by omega) (by omega))]

/-- Taking the first event off iteration `j` takes it off the events of the
loop, up to the order of the events. -/
theorem loopEvents_step (seg seg' : Nat → List Ev) (e : Ev) (j : Nat) (n i : Nat)
    (hj : i ≤ j ∧ j < i + n) (hhead : seg j = e :: seg' j)
    (hrest : ∀ r, r ≠ j → seg' r = seg r) :
    (loopEvents seg n i).Perm (e :: loopEvents seg' n i) := by
  induction n generalizing i with
  | zero => omega
  | succ n ih =>
    simp only [loopEvents]
    by_cases hij : j = i
    · subst hij
      rw [hhead, @loopEvents_congr seg' seg n (j + 1) (fun r h1 _ => hrest r (by omega))]
      exact List.Perm.refl _
    · rw [hrest i (fun h => hij h.symm)]
      have h1 := ih (i + 1) ⟨by omega, by omega⟩
      exact (List.Perm.append_left (seg i) h1).trans List.perm_middle

/-- The events of a parallel loop are those of its iterations run in index
order, up to their order. -/
theorem parEvents_perm (M : Loc → Nat → Int) (n : Nat) (sched : List Nat)
    (body : Nat → Thread) :
    (parEvents M n sched body).Perm (loopEvents (fun i => (body i).events M) n 0) := by
  induction sched generalizing body with
  | nil => exact List.Perm.refl _
  | cons j sched ih =>
    unfold parEvents
    by_cases hj : j < n
    · rw [if_pos hj]
      cases hb : body j with
      | done => exact ih body
      | op o t =>
        refine (List.Perm.cons _ (ih _)).trans (List.Perm.symm ?_)
        refine loopEvents_step _ _ (.call o) j n 0 ⟨Nat.zero_le _, by omega⟩ ?_ ?_
        · simp [hb, Thread.events]
        · intro r hr
          simp [Function.update_noteq hr]
      | load l i f =>
        refine (List.Perm.cons _ (ih _)).trans (List.Perm.symm ?_)
        refine loopEvents_step _ _ (.load l i (M l i)) j n 0 ⟨Nat.zero_le _, by omega⟩ ?_ ?_
        · simp [hb, Thread.events]
        · intro r hr
          simp [Function.update_noteq hr]
    · rw [if_neg hj]
      exact ih body

theorem events_initThread (M : Loc → Nat → Int) (p : Int) :
    (fun i => (initThread p i).events M) = initEvents p := rfl

theorem events_checkTargetThread (M : Loc → Nat → Int) (p npes : Int) :
    (fun i => (checkTargetThread p npes i).events M) = checkTargetEvents M p npes := by
  funext i
  unfold checkTargetThread checkTargetEvents
  by_cases h : M (.remote .dst (target_pe p npes)) i = pattern p i
  · simp [Thread.events, h]
  · simp [Thread.events, h]

theorem events_checkMineThread (M : Loc → Nat → Int) (p npes : Int) :
    (fun i => (checkMineThread p npes i).events M) = checkMineEvents M p npes := by
  funext i
  unfold checkMineThread checkMineEvents
  by_cases h : M (.own .dst) i = pattern (previous_pe p npes) i
  · simp [Thread.events, h]
  · simp [Thread.events, h]

/-- Events of the initialisation loop are the stores of its iterations. -/
theorem initPar_perm (M : Loc → Nat → Int) (p : Int) (sched : List Nat) :
    (parEvents M N sched (initThread p)).Perm (loopEvents (initEvents p) N 0) := by
  have h := parEvents_perm M N sched (initThread p)
  rwa [events_initThread] at h

theorem targetPar_perm (M : Loc → Nat → Int) (p npes : Int) (sched : List Nat) :
    (parEvents M N sched (checkTargetThread p npes)).Perm
      (loopEvents (checkTargetEvents M p npes) N 0) := by
  have h := parEvents_perm M N sched (checkTargetThread p npes)
  rwa [events_checkTargetThread] at h

theorem minePar_perm (M : Loc → Nat → Int) (p npes : Int) (sched : List Nat) :
    (parEvents M N sched (checkMineThread p npes)).Perm
      (loopEvents (checkMineEvents M p npes) N 0) := by
  have h := parEvents_perm M N sched (checkMineThread p npes)
  rwa [events_checkMineThread] at h

theorem trace_epilogue (M : Loc → Nat → Int) (p : Int) :
    (epilogue p).trace M = (if p = 0 then [Ev.call .printSuccess] else []) ++
      [.call (.free .src), .call (.free .dst), .call .finalize, .call .mpiFinalize] := by
  unfold epilogue
  by_cases h : p = 0 <;> simp [Prog.trace, h]

theorem trace_afterSecondBarrier (M : Loc → Nat → Int) (p npes : Int) (σ : LoopSched) :
    (afterSecondBarrier p npes σ).trace M =
      [Ev.call (.resolve .dst (target_pe p npes))] ++
      parEvents M N σ.target (checkTargetThread p npes) ++
      parEvents M N σ.mine (checkMineThread p npes) ++
      (if p = 0 then [Ev.call .printSuccess] else []) ++
      [.call (.free .src), .call (.free .dst), .call .finalize, .call .mpiFinalize] := by
  unfold afterSecondBarrier
  rw [trace_op, trace_parLoop, trace_parLoop, trace_epilogue]
  simp only [List.append_assoc, List.singleton_append, List.cons_append, List.nil_append]

/-- The whole trace of `main` on the path taken when `npes >= 2`. -/
theorem trace_main_of_ge (M : Loc → Nat → Int) (p npes : Int) (σ : LoopSched) (h : 2 ≤ npes) :
    (main p npes σ).trace M =
      [Ev.call .mpiInit, .call .hostInit, .call .myPE, .call .numPEs,
       .call (.allocate .src 40), .call (.allocate .dst 40)] ++
      parEvents M N σ.init (initThread p) ++
      [.call .barrierAll, .call (.put .dst .src 10 (target_pe p npes)), .call .barrierAll,
       .call (.resolve .dst (target_pe p npes))] ++
      parEvents M N σ.target (checkTargetThread p npes) ++
      parEvents M N σ.mine (checkMineThread p npes) ++
      (if p = 0 then [Ev.call .printSuccess] else []) ++
      [.call (.free .src), .call (.free .dst), .call .finalize, .call .mpiFinalize] := by
  have h2 : ¬ npes < 2 := by omega
  unfold main fromFirstBarrier
  rw [if_neg h2]
  simp only [trace_op, trace_parLoop, trace_afterSecondBarrier]
  simp only [List.append_assoc, List.singleton_append, List.cons_append, List.nil_append]
  rfl

/-- The whole trace of `main` on the path taken when `npes < 2`. -/
theorem trace_main_of_lt (M : Loc → Nat → Int) (p npes : Int) (σ : LoopSched) (h : npes < 2) :
    (main p npes σ).trace M =
      [Ev.call .mpiInit, .call .hostInit, .call .myPE, .call .numPEs,
       .call .diag, .call .finalize] := by
  unfold main
  simp [h, Prog.trace]

theorem exitCode_main (M : Loc → Nat → Int) (p npes : Int) (σ : LoopSched) :
    (main p npes σ).exitCode M = if npes < 2 then 1 else 0 := by
  unfold main
  by_cases h : npes < 2
  · simp [h, Prog.exitCode]
  · have hE : (epilogue p).exitCode M = 0 := by
      unfold epilogue
      by_cases h0 : p = 0 <;> simp [Prog.exitCode, h0]
    rw [if_neg h, if_neg h]
    simp only [exitCode_op, fromFirstBarrier, afterSecondBarrier, exitCode_parLoop, hE]

/-! ## Shape of the loops' events -/

theorem mem_loopEvents {seg : Nat → List Ev} {e : Ev} {n i : Nat}
    (h : e ∈ loopEvents seg n i) : ∃ j, e ∈ seg j := by
  induction n generalizing i with
  | zero => simp [loopEvents] at h
  | succ n ih =>
    simp only [loopEvents, List.mem_append] at h
    rcases h with h | h
    · exact ⟨i, h⟩
    · exact ih h

theorem mem_loopEvents_range {seg : Nat → List Ev} {e : Ev} {n i : Nat}
    (h : e ∈ loopEvents seg n i) : ∃ j, i ≤ j ∧ j < i + n ∧ e ∈ seg j := by
  induction n generalizing i with
  | zero => simp [loopEvents] at h
  | succ n ih =>
    simp only [loopEvents, List.mem_append] at h
    rcases h with h | h
    · exact ⟨i, Nat.le_refl _, by omega, h⟩
    · obtain ⟨j, h1, h2, h3⟩ := ih h
      exact ⟨j, by omega, by omega, h3⟩

theorem mem_loopEvents_of {seg : Nat → List Ev} {e : Ev} {n i j : Nat}
    (h1 : i ≤ j) (h2 : j < i + n) (h : e ∈ seg j) : e ∈ loopEvents seg n i := by
  induction n generalizing i with
  | zero => omega
  | succ n ih =>
    simp only [loopEvents, List.mem_append]
    by_cases hij : j = i
    · left; rw [← hij]; exact h
    · right; exact ih (by omega) (by omega)

theorem filter_loopEvents (f : Ev → Bool) (seg : Nat → List Ev) (n i : Nat) :
    (loopEvents seg n i).filter f = loopEvents (fun j => (seg j).filter f) n i := by
  induction n generalizing i with
  | zero => simp [loopEvents]
  | succ n ih => simp [loopEvents, ih]

theorem mem_initEvents {p : Int} {e : Ev} {n i : Nat}
    (h : e ∈ loopEvents (initEvents p) n i) : ∃ b j v, e = .call (.write b j v) := by
  obtain ⟨j, hj⟩ := mem_loopEvents h
  simp only [initEvents, List.mem_cons, List.mem_singleton, List.not_mem_nil, or_false] at hj
  rcases hj with rfl | rfl
  · exact ⟨_, _, _, rfl⟩
  · exact ⟨_, _, _, rfl⟩

theorem mem_initLoop {M : Loc → Nat → Int} {p : Int} {e : Ev} {sched : List Nat}
    (h : e ∈ parEvents M N sched (initThread p)) : ∃ b j v, e = .call (.write b j v) :=
  mem_initEvents ((initPar_perm M p sched).mem_iff.1 h)

theorem mem_checkTargetLoop {M : Loc → Nat → Int} {p npes : Int} {e : Ev} {sched : List Nat}
    (h : e ∈ parEvents M N sched (checkTargetThread p npes)) :
    (∃ j v, e = .load (.remote .dst (target_pe p npes)) j v) ∨
      (∃ j x g, e = .call (.printErrTarget (target_pe p npes) j x g)) := by
  obtain ⟨j, hj⟩ := mem_loopEvents ((targetPar_perm M p npes sched).mem_iff.1 h)
  unfold checkTargetEvents at hj
  split at hj
  · simp only [List.mem_cons, List.mem_singleton, List.not_mem_nil, or_false] at hj
    rcases hj with rfl | rfl | rfl
    · exact Or.inl ⟨_, _, rfl⟩
    · exact Or.inl ⟨_, _, rfl⟩
    · exact Or.inr ⟨_, _, _, rfl⟩
  · simp only [List.mem_singleton] at hj
    exact Or.inl ⟨_, _, hj⟩

theorem mem_checkMineLoop {M : Loc → Nat → Int} {p npes : Int} {e : Ev} {sched : List Nat}
    (h : e ∈ parEvents M N sched (checkMineThread p npes)) :
    (∃ j v, e = .load (.own .dst) j v) ∨ (∃ j x g, e = .call (.printErrMine p j x g)) := by
  obtain ⟨j, hj⟩ := mem_loopEvents ((minePar_perm M p npes sched).mem_iff.1 h)
  unfold checkMineEvents at hj
  split at hj
  · simp only [List.mem_cons, List.mem_singleton, List.not_mem_nil, or_false] at hj
    rcases hj with rfl | rfl | rfl
    · exact Or.inl ⟨_, _, rfl⟩
    · exact Or.inl ⟨_, _, rfl⟩
    · exact Or.inr ⟨_, _, _, rfl⟩
  · simp only [List.mem_singleton] at hj
    exact Or.inl ⟨_, _, hj⟩

/-- A filter that rejects every event of a list empties it. -/
theorem filter_none {f : Ev → Bool} {l : List Ev} (h : ∀ e ∈ l, f e = false) :
    l.filter f = [] := by
  rw [List.filter_eq_nil_iff]
  intro e he
  simp [h e he]

/-- A filter that accepts every event of a list keeps it. -/
theorem filter_all {f : Ev → Bool} {l : List Ev} (h : ∀ e ∈ l, f e = true) :
    l.filter f = l := by
  rw [List.filter_eq_self]
  exact h

/-- Everything `main` does between the two allocations and the frees when
`npes >= 2`: initialisation, barrier, put, barrier, resolve, validation and
the success message. -/
theorem trace_main_middle (M : Loc → Nat → Int) (p npes : Int) (σ : LoopSched) (h : 2 ≤ npes) :
    ∃ mid : List Ev,
      (main p npes σ).trace M =
        [Ev.call .mpiInit, .call .hostInit, .call .myPE, .call .numPEs,
         .call (.allocate .src 40), .call (.allocate .dst 40)] ++ mid ++
        [.call (.free .src), .call (.free .dst), .call .finalize, .call .mpiFinalize] ∧
      (∀ e ∈ mid, e.isAllocate = false ∧ e.isFree = false ∧ e ≠ .call .finalize) := by
  refine ⟨parEvents M N σ.init (initThread p) ++
      [.call .barrierAll, .call (.put .dst .src 10 (target_pe p npes)), .call .barrierAll,
       .call (.resolve .dst (target_pe p npes))] ++
      parEvents M N σ.target (checkTargetThread p npes) ++
      parEvents M N σ.mine (checkMineThread p npes) ++
      (if p = 0 then [Ev.call .printSuccess] else []), ?_, ?_⟩
  · rw [trace_main_of_ge M p npes σ h]
    simp only [List.append_assoc]
  · intro e he
    simp only [List.mem_append, List.mem_cons, List.mem_singleton, List.not_mem_nil,
      or_false] at he
    rcases he with (((he | he) | he) | he) | he
    · obtain ⟨b, j, v, rfl⟩ := mem_initLoop he
      simp [Ev.isAllocate, Ev.isFree]
    · rcases he with rfl | rfl | rfl | rfl <;> simp [Ev.isAllocate, Ev.isFree]
    · rcases mem_checkTargetLoop he with ⟨j, v, rfl⟩ | ⟨j, x, g, rfl⟩ <;>
        simp [Ev.isAllocate, Ev.isFree]
    · rcases mem_checkMineLoop he with ⟨j, v, rfl⟩ | ⟨j, x, g, rfl⟩ <;>
        simp [Ev.isAllocate, Ev.isFree]
    · split at he
      · simp only [List.mem_singleton] at he
        subst he
        simp [Ev.isAllocate, Ev.isFree]
      · simp at he

/-! ## Integer arithmetic and the ring maps -/

theorem wrap32_of_range (x : Int) (h0 : -2147483648 ≤ x) (h1 : x < 2147483648) :
    wrap32 x = x := by
  unfold wrap32
  omega

theorem wrap32_of_over (x : Int) (h0 : 2147483648 ≤ x) (h1 : x < 6442450944) :
    wrap32 x = x - 4294967296 := by
  unfold wrap32
  omega

/-- Up to PE 21474836 the `int` expression `p * 100 + i` does not overflow. -/
theorem pattern_eq (p : Int) (i : Nat) (h0 : 0 ≤ p) (h1 : p ≤ 21474836) (hi : i < N) :
    pattern p i = p * 100 + i := by
  have hi10 : (i : Int) < 10 := by
    have : i < 10 := hi
    omega
  unfold pattern
  rw [wrap32_of_range (p * 100) (by omega) (by omega), wrap32_of_range _ (by omega) (by omega)]

theorem target_pe_eq (p npes : Int) (h0 : 0 ≤ p) (h1 : p < npes) :
    target_pe p npes = if p + 1 = npes then 0 else p + 1 := by
  unfold target_pe
  rw [Int.tmod_eq_emod (by omega) (by omega)]
  split
  · next h => rw [h, Int.emod_self]
  · next h => exact Int.emod_eq_of_lt (by omega) (by omega)

/-- Up to `2^30` PEs the `int` sum `my_pe - 1 + npes` does not overflow. -/
theorem previous_pe_eq (p npes : Int) (h0 : 0 ≤ p) (h1 : p < npes) (hmax : npes ≤ 1073741824) :
    previous_pe p npes = if p = 0 then npes - 1 else p - 1 := by
  unfold previous_pe
  rw [wrap32_of_range (p - 1) (by omega) (by omega),
    wrap32_of_range (p - 1 + npes) (by omega) (by omega),
    Int.tmod_eq_emod (by omega) (by omega)]
  split
  · next h =>
    have hrw : p - 1 + npes = npes - 1 := by omega
    rw [hrw]
    exact Int.emod_eq_of_lt (by omega) (by omega)
  · next h =>
    have hlt : (p - 1) % npes = p - 1 := Int.emod_eq_of_lt (by omega) (by omega)
    rw [Int.add_emod_self, hlt]

theorem tmod_nonpos (a b : Int) (h : a ≤ 0) : a.tmod b ≤ 0 := by
  cases a with
  | ofNat m =>
    have hm : m = 0 := by
      have : (m : Int) ≤ 0 := h
      omega
    subst hm
    simp
  | negSucc m =>
    cases b with
    | ofNat n =>
      show -Int.ofNat (m.succ % n) ≤ 0
      have : (0 : Int) ≤ Int.ofNat (m.succ % n) := Int.ofNat_nonneg _
      omega
    | negSucc n =>
      show -Int.ofNat (m.succ % n.succ) ≤ 0
      have : (0 : Int) ≤ Int.ofNat (m.succ % n.succ) := Int.ofNat_nonneg _
      omega

/-- For an `int` number of PEs the predecessor computed by line 64 differs
from `my_pe` exactly when there are at least two PEs, overflow or not. -/
theorem previous_pe_ne (p npes : Int) (h0 : 0 ≤ p) (h1 : p < npes) (hmax : npes ≤ 2147483647) :
    previous_pe p npes ≠ p ↔ 2 ≤ npes := by
  by_cases hov : p - 1 + npes < 2147483648
  · have : previous_pe p npes = if p = 0 then npes - 1 else p - 1 := by
      unfold previous_pe
      rw [wrap32_of_range (p - 1) (by omega) (by omega),
        wrap32_of_range (p - 1 + npes) (by omega) (by omega),
        Int.tmod_eq_emod (by omega) (by omega)]
      split
      · next h =>
        have hrw : p - 1 + npes = npes - 1 := by omega
        rw [hrw]
        exact Int.emod_eq_of_lt (by omega) (by omega)
      · next h =>
        have hlt : (p - 1) % npes = p - 1 := Int.emod_eq_of_lt (by omega) (by omega)
        rw [Int.add_emod_self, hlt]
    rw [this]
    split <;> omega
  · have hle : previous_pe p npes ≤ 0 := by
      unfold previous_pe
      rw [wrap32_of_range (p - 1) (by omega) (by omega),
        wrap32_of_over (p - 1 + npes) (by omega) (by omega)]
      exact tmod_nonpos _ _ (by omega)
    constructor
    · intro _; omega
    · intro _; omega

/-! ## Helper lemmas on stateful folds over a trace -/

theorem heapOffsets_skip {σ : Type} (alloc : σ → Nat → Nat × σ) (release : σ → Buf → σ)
    (l r : List Ev) (st : σ) (h : ∀ e ∈ l, e.isAllocate = false ∧ e.isFree = false) :
    heapOffsets alloc release (l ++ r) st = heapOffsets alloc release r st := by
  induction l with
  | nil => rfl
  | cons e l ih =>
    have he := h e (List.mem_cons_self _ _)
    have hl : ∀ x ∈ l, x.isAllocate = false ∧ x.isFree = false :=
      fun x hx => h x (List.mem_cons_of_mem _ hx)
    cases e with
    | load l0 i v => simpa [heapOffsets] using ih hl
    | call o =>
      cases o <;>
        first
        | (simp [Ev.isAllocate, Ev.isFree] at he; done)
        | simpa [heapOffsets] using ih hl

theorem liveAfter_skip (l r : List Ev) (live : List Buf)
    (h : ∀ e ∈ l, e.isAllocate = false ∧ e.isFree = false) :
    liveAfter (l ++ r) live = liveAfter r live := by
  induction l with
  | nil => rfl
  | cons e l ih =>
    have he := h e (List.mem_cons_self _ _)
    have hl : ∀ x ∈ l, x.isAllocate = false ∧ x.isFree = false :=
      fun x hx => h x (List.mem_cons_of_mem _ hx)
    cases e with
    | load l0 i v => simpa [liveAfter] using ih hl
    | call o =>
      cases o <;>
        first
        | (simp [Ev.isAllocate, Ev.isFree] at he; done)
        | simpa [liveAfter] using ih hl

/-- A split of `X ++ tail` at an element that does not occur in `X` falls
inside `tail`. -/
theorem split_in_tail {α : Type} (X tail pre post : List α) (x : α) (hx : x ∉ X)
    (h : pre ++ x :: post = X ++ tail) :
    ∃ mid, pre = X ++ mid ∧ mid ++ x :: post = tail := by
  rw [List.append_eq_append_iff] at h
  rcases h with ⟨a, ha, hb⟩ | ⟨c, hc, hd⟩
  · cases a with
    | nil => exact ⟨[], by simpa using ha.symm, by simpa using hb⟩
    | cons y a =>
      simp only [List.cons_append, List.cons.injEq] at hb
      exact absurd (by rw [ha, hb.1]; simp) hx
  · exact ⟨c, hc, hd.symm⟩

/-! ## Claims about one PE -/

/-- C9: for `my_pe` in `[0, npes)`, `target_pe` differs from `my_pe` exactly
when `npes >= 2`, and so does the `previous_pe` of 32-bit arithmetic for every
`npes` that is an `int` (at most `INT_MAX`), overflow of `my_pe - 1 + npes` or
not; every `nvshmem_int_put` that `main` issues therefore names a PE other
than the caller, however its parallel loops interleave. -/
theorem put_is_remote (M : Loc → Nat → Int) (σ : LoopSched) (npes my_pe : Int)
    (h0 : 0 ≤ my_pe) (h1 : my_pe < npes) :
    (target_pe my_pe npes ≠ my_pe ↔ 2 ≤ npes) ∧
    (npes ≤ 2147483647 → (previous_pe my_pe npes ≠ my_pe ↔ 2 ≤ npes)) ∧
    (∀ d s c pe, Ev.call (.put d s c pe) ∈ (main my_pe npes σ).trace M →
      pe = target_pe my_pe npes ∧ pe ≠ my_pe) := by
  have ht : target_pe my_pe npes ≠ my_pe ↔ 2 ≤ npes := by
    rw [target_pe_eq my_pe npes h0 h1]; split <;> omega
  refine ⟨ht, fun hmax => previous_pe_ne my_pe npes h0 h1 hmax, ?_⟩
  intro d s c pe hmem
  by_cases hn : 2 ≤ npes
  · rw [trace_main_of_ge M my_pe npes σ hn] at hmem
    simp only [List.mem_append, List.mem_cons, List.mem_singleton, List.not_mem_nil,
      or_false] at hmem
    rcases hmem with ((((((he | he) | he) | he) | he) | he) | he)
    · simp at he
    · obtain ⟨b, j, v, hb⟩ := mem_initLoop he
      simp at hb
    · simp only [Ev.call.injEq, Op.put.injEq, reduceCtorEq, false_or, or_false] at he
      obtain ⟨_, _, _, rfl⟩ := he
      exact ⟨rfl, ht.2 hn⟩
    · rcases mem_checkTargetLoop he with ⟨j, v, hb⟩ | ⟨j, x, g, hb⟩ <;> simp at hb
    · rcases mem_checkMineLoop he with ⟨j, v, hb⟩ | ⟨j, x, g, hb⟩ <;> simp at hb
    · split at he <;> simp at he
    · simp at he
  · rw [trace_main_of_lt M my_pe npes σ (by omega)] at hmem
    simp at hmem

theorem put_is_remote_witness :
    ((0 : Int) ≤ 3 ∧ (3 : Int) < 4) ∧
    Ev.call (.put .dst .src 10 0) ∈ (main 3 4 (demoLoops 0)).trace (fun _ _ => 0) ∧
    (target_pe 3 4 ≠ 3 ↔ (2 : Int) ≤ 4) ∧
    (previous_pe 3 4 ≠ 3 ↔ (2 : Int) ≤ 4) ∧
    ((0 : Int) = target_pe 3 4 ∧ (0 : Int) ≠ 3) :=
  ⟨by decide, by decide,
   (put_is_remote (fun _ _ => 0) (demoLoops 0) 4 3 (by decide) (by decide)).1,
   (put_is_remote (fun _ _ => 0) (demoLoops 0) 4 3 (by decide) (by decide)).2.1 (by decide),
   (put_is_remote (fun _ _ => 0) (demoLoops 0) 4 3 (by decide) (by decide)).2.2
     .dst .src 10 0 (by decide)⟩

/-- C2: when `npes < 2`, `main` returns 1 after issuing, of all runtime
operations, only initialize, myPE, numPEs and finalize (so no allocate, put,
barrierAll, resolve or free); the exit code is 1 in that case only, and 0
when `npes >= 2`. -/
theorem min_pe_guard (M : Loc → Nat → Int) (σ : LoopSched) (my_pe npes : Int) :
    ((main my_pe npes σ).exitCode M = 1 ↔ npes < 2) ∧
    (2 ≤ npes → (main my_pe npes σ).exitCode M = 0) ∧
    (npes < 2 →
      ((main my_pe npes σ).trace M).filter Ev.isRuntime =
        [.call .hostInit, .call .myPE, .call .numPEs, .call .finalize] ∧
      (∀ e ∈ (main my_pe npes σ).trace M,
        (∀ b n, e ≠ .call (.allocate b n)) ∧ (∀ d s c pe, e ≠ .call (.put d s c pe)) ∧
        e ≠ .call .barrierAll ∧ (∀ b pe, e ≠ .call (.resolve b pe)) ∧
        (∀ b, e ≠ .call (.free b)))) := by
  rw [exitCode_main]
  refine ⟨?_, ?_, ?_⟩
  · split <;> simp_all
  · intro h
    rw [if_neg (by omega)]
  · intro h
    rw [trace_main_of_lt M my_pe npes σ h]
    refine ⟨by decide, ?_⟩
    intro e he
    simp only [List.mem_cons, List.mem_singleton, List.not_mem_nil, or_false] at he
    rcases he with rfl | rfl | rfl | rfl | rfl | rfl <;> simp

theorem min_pe_guard_witness :
    (main 0 1 (demoLoops 0)).exitCode (fun _ _ => 0) = 1 ∧
    (main 1 2 (demoLoops 0)).exitCode (fun _ _ => 0) = 0 ∧
    ((main 0 1 (demoLoops 0)).trace (fun _ _ => 0)).filter Ev.isRuntime =
      [.call .hostInit, .call .myPE, .call .numPEs, .call .finalize] :=
  ⟨(min_pe_guard (fun _ _ => 0) (demoLoops 0) 0 1).1.2 (by decide),
   (min_pe_guard (fun _ _ => 0) (demoLoops 0) 1 2).2.1 (by decide),
   ((min_pe_guard (fun _ _ => 0) (demoLoops 0) 0 1).2.2 (by decide)).1⟩

/-- C4: for `npes >= 2` the allocate calls of `main` are `src` then `dst`, 40
bytes each, whatever `my_pe`, the memory contents and the interleaving of the
parallel loops are; so under any deterministic allocator started in the same
state any two PEs `p`, `q` (in `[0, npes)` or not) record the same offsets for
`src` and for `dst`; under the cursor allocator started at cursor `c` these
are `c` and `c + 40`. -/
theorem symmetric_offsets (M M' : Loc → Nat → Int) (σ σ' : LoopSched) (npes p q : Int)
    (hn : 2 ≤ npes) :
    ((main p npes σ).trace M).filter Ev.isAllocate =
      [.call (.allocate .src (N * sizeofInt)), .call (.allocate .dst (N * sizeofInt))] ∧
    ((main p npes σ).trace M).filter Ev.isAllocate =
      ((main q npes σ').trace M').filter Ev.isAllocate ∧
    (∀ (τ : Type) (alloc : τ → Nat → Nat × τ) (release : τ → Buf → τ) (st : τ),
      heapOffsets alloc release ((main p npes σ).trace M) st =
        heapOffsets alloc release ((main q npes σ').trace M') st) ∧
    (∀ c : Nat, heapOffsets cursorAlloc cursorFree ((main p npes σ).trace M) c =
      [(.src, c), (.dst, c + 40)]) := by
  have hfil : ∀ (M : Loc → Nat → Int) (σ : LoopSched) (r : Int),
      ((main r npes σ).trace M).filter Ev.isAllocate =
        [.call (.allocate .src (N * sizeofInt)), .call (.allocate .dst (N * sizeofInt))] := by
    intro M σ r
    obtain ⟨mid, hmid, hprop⟩ := trace_main_middle M r npes σ hn
    rw [hmid, List.filter_append, List.filter_append, filter_none (fun e he => (hprop e he).1)]
    decide
  have hoff : ∀ (τ : Type) (alloc : τ → Nat → Nat × τ) (release : τ → Buf → τ) (st : τ)
      (M : Loc → Nat → Int) (σ : LoopSched) (r : Int),
      heapOffsets alloc release ((main r npes σ).trace M) st =
        [(.src, (alloc st 40).1), (.dst, (alloc (alloc st 40).2 40).1)] := by
    intro τ alloc release st M σ r
    obtain ⟨mid, hmid, hprop⟩ := trace_main_middle M r npes σ hn
    rw [hmid]
    simp only [List.append_assoc, List.cons_append, List.nil_append]
    simp only [heapOffsets]
    rw [heapOffsets_skip _ _ _ _ _ (fun e he => ⟨(hprop e he).1, (hprop e he).2.1⟩)]
    simp [heapOffsets]
  refine ⟨hfil M σ p, ?_, ?_, ?_⟩
  · rw [hfil M σ p, hfil M' σ' q]
  · intro τ alloc release st
    rw [hoff τ alloc release st M σ p, hoff τ alloc release st M' σ' q]
  · intro c
    rw [hoff Nat cursorAlloc cursorFree c M σ p]
    rfl

theorem symmetric_offsets_witness :
    heapOffsets cursorAlloc cursorFree ((main 0 4 (demoLoops 0)).trace (fun _ _ => 0)) 0 =
      heapOffsets cursorAlloc cursorFree ((main 3 4 (demoLoops 3)).trace (fun _ _ => 7)) 0 ∧
    heapOffsets cursorAlloc cursorFree ((main 0 4 (demoLoops 0)).trace (fun _ _ => 0)) 0 =
      [(.src, 0), (.dst, 0 + 40)] :=
  ⟨(symmetric_offsets (fun _ _ => 0) (fun _ _ => 7) (demoLoops 0) (demoLoops 3) 4 0 3
      (by decide)).2.2.1 Nat cursorAlloc cursorFree 0,
   (symmetric_offsets (fun _ _ => 0) (fun _ _ => 7) (demoLoops 0) (demoLoops 3) 4 0 3
      (by decide)).2.2.2 0⟩

theorem filter_checkTargetEvents (M : Loc → Nat → Int) (p npes : Int) :
    (fun i => (checkTargetEvents M p npes i).filter Ev.isRuntime) = targetReads M p npes := by
  funext i
  unfold checkTargetEvents targetReads
  by_cases h : M (.remote .dst (target_pe p npes)) i = pattern p i
  · simp [h, Ev.isRuntime]
  · simp [h, Ev.isRuntime, List.replicate]

theorem filter_checkMineEvents (M : Loc → Nat → Int) (p npes : Int) :
    (fun i => (checkMineEvents M p npes i).filter Ev.isRuntime) = mineReads M p npes := by
  funext i
  unfold checkMineEvents mineReads
  by_cases h : M (.own .dst) i = pattern (previous_pe p npes) i
  · simp [h, Ev.isRuntime]
  · simp [h, Ev.isRuntime, List.replicate]

/-- C5: for `npes >= 2` the runtime operations of `main` (its trace without
the MPI calls and the output statements) are, in this order: initialize, myPE,
numPEs, allocate(src), allocate(dst), the `2 * N` stores of the initialisation
loop (each `src[i]` and each `dst[i]` once, in the order the parallel loop
takes), barrierAll, put(dst, src, 10, target_pe), barrierAll,
resolve(dst, target_pe), the reads of the target's `dst` (every element once,
and once more where the comparison fails), the reads of the own `dst`
(likewise), free(src), free(dst), finalize. The collective calls are the same
list for every `my_pe`, every memory content and every interleaving. -/
theorem control_flow_order (M : Loc → Nat → Int) (σ : LoopSched) (my_pe npes : Int)
    (hn : 2 ≤ npes) :
    (∃ W R1 R2 : List Ev,
      W.Perm (loopEvents (initEvents my_pe) N 0) ∧
      R1.Perm (loopEvents (targetReads M my_pe npes) N 0) ∧
      R2.Perm (loopEvents (mineReads M my_pe npes) N 0) ∧
      (∀ i < N, Ev.call (.write .src i (pattern my_pe i)) ∈ W ∧
        Ev.call (.write .dst i (-1)) ∈ W ∧
        Ev.load (.remote .dst (target_pe my_pe npes)) i
          (M (.remote .dst (target_pe my_pe npes)) i) ∈ R1 ∧
        Ev.load (.own .dst) i (M (.own .dst) i) ∈ R2) ∧
      ((main my_pe npes σ).trace M).filter Ev.isRuntime =
        [.call .hostInit, .call .myPE, .call .numPEs,
         .call (.allocate .src (N * sizeofInt)), .call (.allocate .dst (N * sizeofInt))] ++
        W ++
        [.call .barrierAll, .call (.put .dst .src N (target_pe my_pe npes)), .call .barrierAll,
         .call (.resolve .dst (target_pe my_pe npes))] ++
        R1 ++ R2 ++
        [.call (.free .src), .call (.free .dst), .call .finalize]) ∧
    ((main my_pe npes σ).trace M).filter Ev.isCollective =
      [.call .hostInit, .call (.allocate .src 40), .call (.allocate .dst 40),
       .call .barrierAll, .call .barrierAll, .call (.free .src), .call (.free .dst),
       .call .finalize] := by
  have hW : ∀ e ∈ parEvents M N σ.init (initThread my_pe), ∃ b i v, e = Ev.call (.write b i v) :=
    fun e he => mem_initLoop he
  have hsucc : ∀ f : Ev → Bool,
      (if my_pe = 0 then [Ev.call .printSuccess] else []).filter f =
        if my_pe = 0 then [Ev.call .printSuccess].filter f else [] := by
    intro f; split <;> rfl
  have hR1 : ((parEvents M N σ.target (checkTargetThread my_pe npes)).filter Ev.isRuntime).Perm
      (loopEvents (targetReads M my_pe npes) N 0) := by
    have h := (targetPar_perm M my_pe npes σ.target).filter Ev.isRuntime
    rwa [filter_loopEvents, filter_checkTargetEvents] at h
  have hR2 : ((parEvents M N σ.mine (checkMineThread my_pe npes)).filter Ev.isRuntime).Perm
      (loopEvents (mineReads M my_pe npes) N 0) := by
    have h := (minePar_perm M my_pe npes σ.mine).filter Ev.isRuntime
    rwa [filter_loopEvents, filter_checkMineEvents] at h
  constructor
  · refine ⟨parEvents M N σ.init (initThread my_pe),
      (parEvents M N σ.target (checkTargetThread my_pe npes)).filter Ev.isRuntime,
      (parEvents M N σ.mine (checkMineThread my_pe npes)).filter Ev.isRuntime,
      initPar_perm M my_pe σ.init, hR1, hR2, ?_, ?_⟩
    · intro i hi
      refine ⟨?_, ?_, ?_, ?_⟩
      · exact (initPar_perm M my_pe σ.init).mem_iff.2
          (mem_loopEvents_of (j := i) (Nat.zero_le _) (by omega) (by simp [initEvents]))
      · exact (initPar_perm M my_pe σ.init).mem_iff.2
          (mem_loopEvents_of (j := i) (Nat.zero_le _) (by omega) (by simp [initEvents]))
      · refine hR1.mem_iff.2 (mem_loopEvents_of (j := i) (Nat.zero_le _) (by omega) ?_)
        unfold targetReads
        split <;> simp [List.replicate]
      · refine hR2.mem_iff.2 (mem_loopEvents_of (j := i) (Nat.zero_le _) (by omega) ?_)
        unfold mineReads
        split <;> simp [List.replicate]
    · rw [trace_main_of_ge M my_pe npes σ hn]
      simp only [List.filter_append, hsucc]
      rw [filter_all (f := Ev.isRuntime) (l := parEvents M N σ.init (initThread my_pe))]
      · have h1 : (if my_pe = 0 then [Ev.call .printSuccess].filter Ev.isRuntime else [])
            = [] := by split <;> rfl
        rw [h1]
        simp only [List.append_nil]
        rfl
      · intro e he
        obtain ⟨b, i, v, rfl⟩ := hW e he
        rfl
  · rw [trace_main_of_ge M my_pe npes σ hn]
    simp only [List.filter_append, hsucc]
    rw [filter_none (f := Ev.isCollective) (l := parEvents M N σ.init (initThread my_pe)),
      filter_none (f := Ev.isCollective)
        (l := parEvents M N σ.target (checkTargetThread my_pe npes)),
      filter_none (f := Ev.isCollective)
        (l := parEvents M N σ.mine (checkMineThread my_pe npes))]
    · have h1 : (if my_pe = 0 then [Ev.call .printSuccess].filter Ev.isCollective else [])
          = [] := by split <;> rfl
      rw [h1]
      rfl
    · intro e he
      rcases mem_checkMineLoop he with ⟨j, v, rfl⟩ | ⟨j, x, g, rfl⟩ <;> rfl
    · intro e he
      rcases mem_checkTargetLoop he with ⟨j, v, rfl⟩ | ⟨j, x, g, rfl⟩ <;> rfl
    · intro e he
      obtain ⟨b, i, v, rfl⟩ := hW e he
      rfl

theorem control_flow_order_witness :
    ((main 0 4 (demoLoops 0)).trace (fun _ _ => 0)).filter Ev.isCollective =
      [.call .hostInit, .call (.allocate .src 40), .call (.allocate .dst 40),
       .call .barrierAll, .call .barrierAll, .call (.free .src), .call (.free .dst),
       .call .finalize] :=
  (control_flow_order (fun _ _ => 0) (demoLoops 0) 0 4 (by decide)).2

/-- C6: for `npes >= 2`, `main` allocates `src` then `dst` and frees `src`
then `dst`, each once and in an order that does not depend on the PE; after
the free of a buffer no later event of the PE reads, writes, transfers or
resolves it; and at the call of finalize no allocation is live. -/
theorem allocation_discipline (M : Loc → Nat → Int) (σ : LoopSched) (my_pe npes : Int)
    (hn : 2 ≤ npes) :
    ((main my_pe npes σ).trace M).filter Ev.isAllocate =
      [.call (.allocate .src 40), .call (.allocate .dst 40)] ∧
    ((main my_pe npes σ).trace M).filter Ev.isFree = [.call (.free .src), .call (.free .dst)] ∧
    (∀ b pre post, (main my_pe npes σ).trace M = pre ++ Ev.call (.free b) :: post →
      ∀ e ∈ post, e.touches b = false) ∧
    (∀ pre post, (main my_pe npes σ).trace M = pre ++ Ev.call .finalize :: post →
      liveAfter pre [] = [] ∧ post = [.call .mpiFinalize]) := by
  obtain ⟨mid, hmid, hprop⟩ := trace_main_middle M my_pe npes σ hn
  rw [hmid]
  refine ⟨?_, ?_, ?_, ?_⟩
  · rw [List.filter_append, List.filter_append, filter_none (fun e he => (hprop e he).1)]
    decide
  · rw [List.filter_append, List.filter_append, filter_none (fun e he => (hprop e he).2.1)]
    decide
  · intro b pre post h
    obtain ⟨m, -, hm⟩ := split_in_tail _ _ pre post (Ev.call (.free b)) (by
      intro hx
      simp only [List.mem_append, List.mem_cons, List.mem_singleton, List.not_mem_nil,
        or_false] at hx
      rcases hx with hx | hx
      · simp at hx
      · simpa [Ev.isFree] using (hprop _ hx).2.1) h.symm
    rcases m with _ | ⟨a, _ | ⟨a2, _ | ⟨a3, _ | ⟨a4, m⟩⟩⟩⟩ <;>
      simp only [List.nil_append, List.cons_append, List.cons.injEq, Ev.call.injEq,
        Op.free.injEq, reduceCtorEq, and_false, false_and, List.nil_eq, List.append_eq_nil,
        and_true, true_and] at hm
    · obtain ⟨rfl, rfl⟩ := hm
      decide
    · obtain ⟨rfl, rfl, rfl⟩ := hm
      decide
  · intro pre post h
    obtain ⟨m, hpre, hm⟩ := split_in_tail _ _ pre post (Ev.call .finalize) (by
      intro hx
      simp only [List.mem_append, List.mem_cons, List.mem_singleton, List.not_mem_nil,
        or_false] at hx
      rcases hx with hx | hx
      · simp at hx
      · exact (hprop _ hx).2.2 rfl) h.symm
    rcases m with _ | ⟨a, _ | ⟨a2, _ | ⟨a3, _ | ⟨a4, m⟩⟩⟩⟩ <;>
      simp only [List.nil_append, List.cons_append, List.cons.injEq, Ev.call.injEq,
        reduceCtorEq, and_false, false_and, List.nil_eq, List.append_eq_nil,
        and_true, true_and] at hm
    obtain ⟨rfl, rfl, rfl⟩ := hm
    refine ⟨?_, rfl⟩
    rw [hpre]
    simp only [List.append_assoc, List.cons_append, List.nil_append]
    simp only [liveAfter]
    rw [liveAfter_skip _ _ _ (fun e he => ⟨(hprop e he).1, (hprop e he).2.1⟩)]
    decide

theorem allocation_discipline_witness :
    ((main 0 4 (demoLoops 0)).trace (fun _ _ => 0)).filter Ev.isFree =
      [.call (.free .src), .call (.free .dst)] :=
  (allocation_discipline (fun _ _ => 0) (demoLoops 0) 0 4 (by decide)).2.1

/-- On PE 0 the success line is printed in every run with `npes >= 2`,
whatever the validation loops have read. -/
theorem success_unconditional (M : Loc → Nat → Int) (σ : LoopSched) (npes : Int)
    (hn : 2 ≤ npes) : Ev.call .printSuccess ∈ (main 0 npes σ).trace M := by
  rw [trace_main_of_ge M 0 npes σ hn]
  simp

/-- C7 fails on the code: on PE 0 of a two-PE run in which every read of `dst`
after the second barrier returns -1, both validation loops print `[ERROR]`
lines and the `[SUCCESS]` line is printed all the same, with exit code 0. -/
theorem success_printed_after_errors :
    Ev.call (.printErrTarget 1 0 0 (-1)) ∈
      (main 0 2 LoopSched.inOrder).trace (fun _ _ => -1) ∧
    Ev.call (.printErrMine 0 0 100 (-1)) ∈
      (main 0 2 LoopSched.inOrder).trace (fun _ _ => -1) ∧
    Ev.call .printSuccess ∈ (main 0 2 LoopSched.inOrder).trace (fun _ _ => -1) ∧
    (main 0 2 LoopSched.inOrder).exitCode (fun _ _ => -1) = 0 := by
  refine ⟨by decide, by decide, by decide, by decide⟩

/-! ## Basic facts about the run -/

@[simp] theorem afterOp_prog (st : PEState) (o : Op) (k : Prog) : (st.afterOp o k).prog = k := rfl
@[simp] theorem afterOp_mem (st : PEState) (o : Op) (k : Prog) :
    (st.afterOp o k).mem = execOp st.mem o := rfl
@[simp] theorem afterOp_arrived (st : PEState) (o : Op) (k : Prog) :
    (st.afterOp o k).arrived = st.arrived := rfl
@[simp] theorem afterOp_waiting (st : PEState) (o : Op) (k : Prog) :
    (st.afterOp o k).waiting = st.waiting := rfl
@[simp] theorem afterOp_log (st : PEState) (o : Op) (k : Prog) :
    (st.afterOp o k).log = st.log ++ [.call o] := rfl

@[simp] theorem afterLoad_prog (st : PEState) (l : Loc) (i : Nat) (v : Int) (k : Int → Prog) :
    (st.afterLoad l i v k).prog = k v := rfl
@[simp] theorem afterLoad_mem (st : PEState) (l : Loc) (i : Nat) (v : Int) (k : Int → Prog) :
    (st.afterLoad l i v k).mem = st.mem := rfl
@[simp] theorem afterLoad_arrived (st : PEState) (l : Loc) (i : Nat) (v : Int)
    (k : Int → Prog) : (st.afterLoad l i v k).arrived = st.arrived := rfl
@[simp] theorem afterLoad_waiting (st : PEState) (l : Loc) (i : Nat) (v : Int)
    (k : Int → Prog) : (st.afterLoad l i v k).waiting = st.waiting := rfl
@[simp] theorem afterLoad_log (st : PEState) (l : Loc) (i : Nat) (v : Int) (k : Int → Prog) :
    (st.afterLoad l i v k).log = st.log ++ [.load l i v] := rfl

@[simp] theorem enterBarrier_prog (st : PEState) (k : Prog) : (st.enterBarrier k).prog = k := rfl
@[simp] theorem enterBarrier_mem (st : PEState) (k : Prog) :
    (st.enterBarrier k).mem = st.mem := rfl
@[simp] theorem enterBarrier_arrived (st : PEState) (k : Prog) :
    (st.enterBarrier k).arrived = st.arrived + 1 := rfl
@[simp] theorem enterBarrier_waiting (st : PEState) (k : Prog) :
    (st.enterBarrier k).waiting = true := rfl
@[simp] theorem enterBarrier_log (st : PEState) (k : Prog) :
    (st.enterBarrier k).log = st.log ++ [.call .barrierAll] := rfl

@[simp] theorem leaveBarrier_prog (st : PEState) : st.leaveBarrier.prog = st.prog := rfl
@[simp] theorem leaveBarrier_mem (st : PEState) : st.leaveBarrier.mem = st.mem := rfl
@[simp] theorem leaveBarrier_arrived (st : PEState) : st.leaveBarrier.arrived = st.arrived := rfl
@[simp] theorem leaveBarrier_waiting (st : PEState) : st.leaveBarrier.waiting = false := rfl
@[simp] theorem leaveBarrier_log (st : PEState) : st.leaveBarrier.log = st.log := rfl

@[simp] theorem receive_prog (st : PEState) (b : Buf) (d : List Int) :
    (st.receive b d).prog = st.prog := rfl
@[simp] theorem receive_mem (st : PEState) (b : Buf) (d : List Int) :
    (st.receive b d).mem = Function.update st.mem b (applyData d (st.mem b)) := rfl
@[simp] theorem receive_arrived (st : PEState) (b : Buf) (d : List Int) :
    (st.receive b d).arrived = st.arrived := rfl
@[simp] theorem receive_waiting (st : PEState) (b : Buf) (d : List Int) :
    (st.receive b d).waiting = st.waiting := rfl
@[simp] theorem receive_log (st : PEState) (b : Buf) (d : List Int) :
    (st.receive b d).log = st.log := rfl

@[simp] theorem setPE_pe_self (s : Sys) (p : Nat) (st : PEState) : (s.setPE p st).pe p = st := by
  simp [Sys.setPE]

theorem setPE_pe_ne (s : Sys) {p q : Nat} (st : PEState) (h : q ≠ p) :
    (s.setPE p st).pe q = s.pe q := by
  simp [Sys.setPE, Function.update_noteq h]

@[simp] theorem setPE_npes (s : Sys) (p : Nat) (st : PEState) : (s.setPE p st).npes = s.npes := rfl

@[simp] theorem setPE_inflight (s : Sys) (p : Nat) (st : PEState) :
    (s.setPE p st).inflight = s.inflight := rfl

@[simp] theorem setPE_issued (s : Sys) (p : Nat) (st : PEState) :
    (s.setPE p st).issued = s.issued := rfl

theorem applyData_idem (d : List Int) (m : Nat → Int) :
    applyData d (applyData d m) = applyData d m := by
  funext i
  simp only [applyData]
  cases d[i]? <;> rfl

theorem applyData_lt (d : List Int) (m : Nat → Int) (i : Nat) (h : i < d.length) :
    applyData d m i = d[i] := by
  simp [applyData, List.getElem?_eq_getElem h]

theorem next_eq (c : Setup) (p : Nat) (h : p < c.npes) :
    c.next p = if p + 1 = c.npes then 0 else p + 1 := by
  unfold Setup.next
  rw [target_pe_eq p c.npes (by omega) (by omega)]
  split
  · next h1 => rw [if_pos (by omega)]; rfl
  · next h1 => rw [if_neg (by omega)]; omega

theorem prev_eq (c : Setup) (q : Nat) (_h : q < c.npes) :
    c.prev q = if q = 0 then c.npes - 1 else q - 1 := rfl

theorem next_lt (c : Setup) (p : Nat) (h : p < c.npes) : c.next p < c.npes := by
  rw [next_eq c p h]; split <;> omega

theorem prev_lt (c : Setup) (q : Nat) (h : q < c.npes) : c.prev q < c.npes := by
  rw [prev_eq c q h]; split <;> omega

theorem prev_next (c : Setup) (p : Nat) (h : p < c.npes) : c.prev (c.next p) = p := by
  rw [prev_eq c _ (next_lt c p h), next_eq c p h]
  split <;> split <;> omega

theorem next_prev (c : Setup) (q : Nat) (h : q < c.npes) : c.next (c.prev q) = q := by
  rw [next_eq c _ (prev_lt c q h), prev_eq c q h]
  split <;> split <;> omega

theorem target_range (c : Setup) (p : Nat) (h : p < c.npes) :
    0 ≤ target_pe p c.npes ∧ target_pe p c.npes < c.npes := by
  rw [target_pe_eq p c.npes (by omega) (by omega)]
  split <;> omega

theorem transfer_inj (c : Setup) {p q : Nat} (h : c.transfer p = c.transfer q) : p = q :=
  congrArg Transfer.source h

theorem final_next_dst (c : Setup) (p : Nat) (h : p < c.npes) :
    c.final (c.next p) .dst = applyData (c.dataOf p) (c.atBarrier (c.next p) .dst) := by
  simp [Setup.final, prev_next c p h]

theorem execOps_snoc (ops : List Op) (o : Op) (m : Buf → Nat → Int) :
    execOps (ops ++ [o]) m = execOp (execOps ops m) o := by
  simp [execOps, List.foldl_append]

theorem take_succ_of_drop {α : Type} (l : List α) (j : Nat) (x : α) (xs : List α)
    (h : l.drop j = x :: xs) : l.take (j + 1) = l.take j ++ [x] ∧ l.drop (j + 1) = xs ∧
      j + 1 ≤ l.length := by
  have hj : j < l.length := by
    by_contra hc
    rw [List.drop_eq_nil_of_le (by omega)] at h
    cases h
  have h1 := List.drop_eq_getElem_cons hj
  rw [h] at h1
  have hx : l[j] = x := (List.cons.inj h1).1.symm
  refine ⟨?_, (List.cons.inj h1).2.symm, hj⟩
  rw [List.take_succ, List.getElem?_eq_getElem hj, hx]; rfl

theorem mem_eraseIdx_of_ne {α : Type} (l : List α) (j : Nat) (x y : α) (hx : x ∈ l)
    (hy : l[j]? = some y) (hne : x ≠ y) : x ∈ l.eraseIdx j := by
  induction l generalizing j with
  | nil => cases hx
  | cons a l ih =>
    cases j with
    | zero =>
      simp only [List.getElem?_cons_zero, Option.some.injEq] at hy
      subst hy
      simp only [List.eraseIdx_cons_zero]
      rcases List.mem_cons.1 hx with h | h
      · exact absurd h hne
      · exact h
    | succ j =>
      simp only [List.getElem?_cons_succ] at hy
      simp only [List.eraseIdx_cons_succ, List.mem_cons]
      rcases List.mem_cons.1 hx with h | h
      · exact Or.inl h
      · exact Or.inr (ih j h hy)

theorem mem_of_mem_eraseIdx {α : Type} (l : List α) (j : Nat) (x : α) (hx : x ∈ l.eraseIdx j) :
    x ∈ l := by
  induction l generalizing j with
  | nil => simp at hx
  | cons a l ih =>
    cases j with
    | zero => exact List.mem_cons_of_mem _ (by simpa using hx)
    | succ j =>
      simp only [List.eraseIdx_cons_succ, List.mem_cons] at hx
      rcases hx with h | h
      · exact List.mem_cons.2 (Or.inl h)
      · exact List.mem_cons_of_mem _ (ih j h)


/-! ## The invariant holds at the start and is kept by every step -/

theorem seq_nil (k : Prog) : Prog.seq [] k = k := rfl

theorem seq_cons (o : Op) (os : List Op) (k : Prog) :
    Prog.seq (o :: os) k = .op o (Prog.seq os k) := rfl

theorem inv_start (c : Setup) : Inv c c.start where
  npes := rfl
  pe := fun p _ =>
    { le2 := Nat.zero_le _
      ph0 := fun _ => ⟨rfl, by simp [Setup.start, Sys.init], 0, Nat.zero_le _, rfl, rfl⟩
      ph1 := fun h => by simp [Setup.start, Sys.init] at h
      ph2 := fun h => by simp [Setup.start, Sys.init] at h
      mem := fun h => by simp [Setup.start, Sys.init] at h
      log := by simp [Setup.start, Sys.init]
      exit := rfl }
  infl := fun t h => by simp [Setup.start, Sys.init] at h
  iss := fun t h => by simp [Setup.start, Sys.init] at h
  done := fun p _ h => by simp [Setup.start, Sys.init] at h
  rel1 := fun p _ h => by simp [Setup.start, Sys.init] at h
  rel2 := fun p _ h => by simp [Setup.start, Sys.init] at h

/-- A PE that has issued its put has returned from the first barrier. -/
theorem issued_released {c : Setup} {s : Sys} (h : Inv c s) {p : Nat} (hp : p < c.npes)
    (hi : c.transfer p ∈ s.issued) :
    (s.pe p).arrived = 1 ∧ (s.pe p).waiting = false ∨ (s.pe p).arrived = 2 := by
  have hpe := h.pe p hp
  have h2 := hpe.le2
  rcases Nat.lt_or_ge (s.pe p).arrived 1 with h0 | h1
  · exact absurd hi (hpe.ph0 (by omega)).2.1
  · rcases Nat.lt_or_ge (s.pe p).arrived 2 with h3 | h3
    · rcases hpe.ph1 (by omega) with ⟨hn, _⟩ | ⟨_, _, hw⟩
      · exact absurd hi hn
      · exact Or.inl ⟨by omega, hw⟩
    · exact Or.inr (by omega)

/-- Once a PE has returned from the second barrier, every PE's memory is final. -/
theorem frozen {c : Setup} {s : Sys} (h : Inv c s) {p : Nat} (hp : p < c.npes)
    (ha : (s.pe p).arrived = 2) (hw : (s.pe p).waiting = false) :
    ∀ q < c.npes, ∀ b, (s.pe q).mem b = c.final q b := by
  intro q hq b
  obtain ⟨hall, hnil⟩ := h.rel2 p hp ha hw
  cases b with
  | src => exact ((h.pe q hq).mem (by rw [hall q hq]; decide)).1
  | dst =>
    have hpq := prev_lt c q hq
    have hiss := ((h.pe _ hpq).ph2 (hall _ hpq)).1
    rcases h.done _ hpq hiss with hin | hm
    · rw [hnil] at hin; cases hin
    · rwa [next_prev c q hq] at hm


/-- A step of PE `p` that changes neither the barrier state nor the puts, and
memory only before the first barrier call, keeps the invariant as soon as it
keeps the part about `p`. -/
theorem inv_frame {c : Setup} {s s' : Sys} (h : Inv c s) {p : Nat} (hp : p < c.npes)
    (hn : s'.npes = s.npes) (hother : ∀ q, q ≠ p → s'.pe q = s.pe q)
    (hiss : s'.issued = s.issued) (hinf : s'.inflight = s.inflight)
    (hmem : 1 ≤ (s.pe p).arrived → (s'.pe p).mem = (s.pe p).mem)
    (harr : (s'.pe p).arrived = (s.pe p).arrived)
    (hwait : (s'.pe p).waiting = (s.pe p).waiting)
    (hpe : PEInv c s.issued (s'.pe p) p) : Inv c s' := by
  have harr' : ∀ q, (s'.pe q).arrived = (s.pe q).arrived := by
    intro q
    by_cases hq : q = p
    · rw [hq, harr]
    · rw [hother q hq]
  have hwait' : ∀ q, (s'.pe q).waiting = (s.pe q).waiting := by
    intro q
    by_cases hq : q = p
    · rw [hq, hwait]
    · rw [hother q hq]
  refine ⟨hn.trans h.npes, ?_, ?_, ?_, ?_, ?_, ?_⟩
  · intro q hq
    rw [hiss]
    by_cases hqp : q = p
    · rw [hqp]; exact hpe
    · rw [hother q hqp]; exact h.pe q hq
  · intro t ht
    rw [hiss]
    rw [hinf] at ht
    exact h.infl t ht
  · intro t ht
    rw [hiss] at ht
    exact h.iss t ht
  · intro q hq hi
    rw [hiss] at hi
    rw [hinf]
    rcases h.done q hq hi with hl | hr
    · exact Or.inl hl
    · right
      by_cases hqp : c.next q = p
      · have h1 : 1 ≤ (s.pe p).arrived := h.rel1 q hq (issued_released h hq hi) p hp
        rw [hqp] at hr ⊢
        rw [hmem h1]
        exact hr
      · rw [hother _ hqp]
        exact hr
  · intro q hq hcond r hr
    rw [harr' q, hwait' q] at hcond
    rw [harr' r]
    exact h.rel1 q hq hcond r hr
  · intro q hq ha hw
    rw [harr' q] at ha
    rw [hwait' q] at hw
    rw [hinf]
    obtain ⟨h1, h2⟩ := h.rel2 q hq ha hw
    exact ⟨fun r hr => by rw [harr' r]; exact h1 r hr, h2⟩

theorem execOp_quiet (m : Buf → Nat → Int) (o : Op) (h : o.isQuiet = true) : execOp m o = m := by
  cases o <;> first | rfl | simp [Op.isQuiet] at h

theorem isLocal_of_isQuiet (o : Op) (h : o.isQuiet = true) : o.isLocal = true := by
  cases o <;> first | rfl | simp [Op.isQuiet] at h

/-- A local operation is executed before the first barrier call or after the
second; in the second case it is quiet. -/
theorem local_phase {c : Setup} {iss : List Transfer} {st : PEState} {p : Nat}
    (hpe : PEInv c iss st p) {o : Op} {k : Prog} (hprog : st.prog = .op o k)
    (ho : o.isLocal = true) :
    st.arrived = 0 ∨ (st.arrived = 2 ∧ o.isQuiet = true ∧ k.quiet c.npes) := by
  have h2 := hpe.le2
  rcases Nat.lt_or_ge st.arrived 1 with h0 | h1
  · exact Or.inl (by omega)
  · rcases Nat.lt_or_ge st.arrived 2 with h3 | h3
    · exfalso
      rcases hpe.ph1 (by omega) with ⟨_, hq⟩ | ⟨_, hq, _⟩
      · rw [hprog, Setup.fromPut] at hq
        injection hq with ho' _
        rw [ho'] at ho
        simp [Op.isLocal] at ho
      · rw [hprog] at hq
        injection hq with ho' _
        rw [ho'] at ho
        simp [Op.isLocal] at ho
    · have ha : st.arrived = 2 := by omega
      have hq := (hpe.ph2 ha).2
      rw [hprog] at hq
      exact Or.inr ⟨ha, hq.1, hq.2⟩

theorem inv_local {c : Setup} {s : Sys} (h : Inv c s) {p : Nat} (hp : p < c.npes)
    {o : Op} {k : Prog} (hprog : (s.pe p).prog = .op o k)
    (ho : o.isLocal = true) :
    Inv c (s.setPE p ((s.pe p).afterOp o k)) := by
  have hpe := h.pe p hp
  have hph := local_phase hpe hprog ho
  refine inv_frame h hp rfl (fun q hq => setPE_pe_ne s _ hq) rfl rfl ?_ (by simp) (by simp) ?_
  · intro h1
    rcases hph with h0 | ⟨_, hq, _⟩
    · omega
    · simp [execOp_quiet _ o hq]
  · rw [setPE_pe_self]
    have hlog : ((s.pe p).log ++ [Ev.call o]) ++ k.trace (c.oracle p) =
        (c.progOf p).trace (c.oracle p) := by
      rw [← hpe.log, hprog, trace_op]
      simp
    have hexit : k.exitCode (c.oracle p) = (c.progOf p).exitCode (c.oracle p) := by
      rw [← hpe.exit, hprog, exitCode_op]
    rcases hph with h0 | ⟨h2, hq, hk⟩
    · obtain ⟨hw, hni, j, hj, hpr, hm⟩ := hpe.ph0 h0
      have hdrop : (c.pre p).drop j = o :: ((c.pre p).drop (j + 1)) ∧
          (c.pre p).take (j + 1) = (c.pre p).take j ++ [o] ∧ j + 1 ≤ (c.pre p).length := by
        cases hd : (c.pre p).drop j with
        | nil =>
          rw [hd, seq_nil, hprog] at hpr
          injection hpr with ho' _
          rw [ho'] at ho
          simp [Op.isLocal] at ho
        | cons x xs =>
          rw [hd, seq_cons, hprog] at hpr
          injection hpr with ho' hk'
          obtain ⟨ht, hdr, hlen⟩ := take_succ_of_drop _ _ _ _ hd
          rw [ho', hdr]
          exact ⟨rfl, by rw [ht], hlen⟩
      have hk : k = Prog.seq ((c.pre p).drop (j + 1)) (.op .barrierAll (c.fromPut p)) := by
        rw [hdrop.1, seq_cons, hprog] at hpr
        injection hpr
      exact
        { le2 := hpe.le2
          ph0 := fun _ => ⟨hw, hni, j + 1, hdrop.2.2, hk, by
            rw [afterOp_mem, hdrop.2.1, execOps_snoc, hm]⟩
          ph1 := fun h1 => by
            have : (s.pe p).arrived = 1 := h1
            omega
          ph2 := fun h1 => by
            have : (s.pe p).arrived = 2 := h1
            omega
          mem := fun h1 => by
            have : 1 ≤ (s.pe p).arrived := h1
            omega
          log := hlog
          exit := hexit }
    · exact
        { le2 := hpe.le2
          ph0 := fun h1 => by
            have : (s.pe p).arrived = 0 := h1
            omega
          ph1 := fun h1 => by
            have : (s.pe p).arrived = 1 := h1
            omega
          ph2 := fun _ => ⟨(hpe.ph2 h2).1, hk⟩
          mem := fun h1 => by
            rw [afterOp_mem, execOp_quiet _ o hq]
            exact hpe.mem h1
          log := hlog
          exit := hexit }


/-- A read is executed only after the second barrier has returned. -/
theorem load_phase {c : Setup} {iss : List Transfer} {st : PEState} {p : Nat}
    (hpe : PEInv c iss st p) {l : Loc} {i : Nat} {k : Int → Prog}
    (hprog : st.prog = .load l i k) :
    st.arrived = 2 ∧ l.inRange c.npes ∧ ∀ v, (k v).quiet c.npes := by
  have h2 := hpe.le2
  rcases Nat.lt_or_ge st.arrived 1 with h0 | h1
  · exfalso
    obtain ⟨_, _, j, _, hpr, _⟩ := hpe.ph0 (by omega)
    rw [hprog] at hpr
    cases hd : (c.pre p).drop j with
    | nil => rw [hd, seq_nil] at hpr; cases hpr
    | cons x xs => rw [hd, seq_cons] at hpr; cases hpr
  · rcases Nat.lt_or_ge st.arrived 2 with h3 | h3
    · exfalso
      rcases hpe.ph1 (by omega) with ⟨_, hq⟩ | ⟨_, hq, _⟩
      · rw [hprog, Setup.fromPut] at hq; cases hq
      · rw [hprog] at hq; cases hq
    · have ha : st.arrived = 2 := by omega
      have hq := (hpe.ph2 ha).2
      rw [hprog] at hq
      exact ⟨ha, hq.1, hq.2⟩

/-- A read whose value is the one the oracle of the final memory gives. -/
theorem inv_load {c : Setup} {s : Sys} (h : Inv c s) {p : Nat} (hp : p < c.npes)
    {l : Loc} {i : Nat} {k : Int → Prog} (hprog : (s.pe p).prog = .load l i k)
    (v : Int) (hval : (s.pe p).waiting = false → (s.pe p).arrived = 2 → v = c.oracle p l i)
    (hw : (s.pe p).waiting = false) :
    Inv c (s.setPE p ((s.pe p).afterLoad l i v k)) := by
  have hpe := h.pe p hp
  obtain ⟨ha, -, hq⟩ := load_phase hpe hprog
  have hv := hval hw ha
  refine inv_frame h hp rfl (fun q hq => setPE_pe_ne s _ hq) rfl rfl (fun _ => by simp)
    (by simp) (by simp) ?_
  rw [setPE_pe_self]
  exact
    { le2 := hpe.le2
      ph0 := fun h1 => by
        have : (s.pe p).arrived = 0 := h1
        omega
      ph1 := fun h1 => by
        have : (s.pe p).arrived = 1 := h1
        omega
      ph2 := fun _ => ⟨(hpe.ph2 ha).1, hq v⟩
      mem := hpe.mem
      log := by
        rw [afterLoad_log, afterLoad_prog, ← hpe.log, hprog, trace_load, hv]
        simp
      exit := by
        rw [afterLoad_prog, ← hpe.exit, hprog, exitCode_load, hv] }

/-- Return from a barrier. -/
theorem inv_release {c : Setup} {s : Sys} (h : Inv c s) {p : Nat} (hp : p < c.npes)
    (hw : (s.pe p).waiting = true) (hr : s.canRelease (s.pe p).arrived = true) :
    Inv c (s.setPE p (s.pe p).leaveBarrier) := by
  have hpe := h.pe p hp
  have hle := hpe.le2
  simp only [Sys.canRelease, Bool.and_eq_true, List.all_eq_true, List.mem_range,
    decide_eq_true_eq] at hr
  obtain ⟨hall, hinf⟩ := hr
  rw [h.npes] at hall
  have h0 : (s.pe p).arrived ≠ 0 := by
    intro h0
    rw [(hpe.ph0 h0).1] at hw
    cases hw
  have harr : ∀ q, ((s.setPE p (s.pe p).leaveBarrier).pe q).arrived = (s.pe q).arrived := by
    intro q
    by_cases hq : q = p
    · rw [hq, setPE_pe_self, leaveBarrier_arrived]
    · rw [setPE_pe_ne s _ hq]
  have hmem : ∀ q, ((s.setPE p (s.pe p).leaveBarrier).pe q).mem = (s.pe q).mem := by
    intro q
    by_cases hq : q = p
    · rw [hq, setPE_pe_self, leaveBarrier_mem]
    · rw [setPE_pe_ne s _ hq]
  refine ⟨h.npes, ?_, h.infl, h.iss, ?_, ?_, ?_⟩
  · intro q hq
    by_cases hqp : q = p
    · rw [hqp, setPE_pe_self]
      exact
        { le2 := hpe.le2
          ph0 := fun h1 => absurd h1 h0
          ph1 := fun h1 => by
            rcases hpe.ph1 h1 with hl | ⟨_, _, hf⟩
            · exact Or.inl hl
            · rw [hf] at hw; cases hw
          ph2 := hpe.ph2
          mem := hpe.mem
          log := hpe.log
          exit := hpe.exit }
    · rw [setPE_pe_ne s _ hqp]
      exact h.pe q hq
  · intro q hq hi
    rw [hmem]
    exact h.done q hq hi
  · intro q hq hcond r hr
    rw [harr r]
    by_cases hqp : q = p
    · have := hall r hr
      omega
    · rw [setPE_pe_ne s _ hqp] at hcond
      exact h.rel1 q hq hcond r hr
  · intro q hq ha hwq
    by_cases hqp : q = p
    · rw [hqp, setPE_pe_self] at ha
      have ha' : (s.pe p).arrived = 2 := ha
      refine ⟨fun r hr => ?_, ?_⟩
      · rw [harr r]
        have h1 := hall r hr
        have h2 := (h.pe r hr).le2
        omega
      · show s.inflight = []
        rw [List.eq_nil_iff_forall_not_mem]
        intro t ht
        obtain ⟨r, _, hr⟩ := h.iss t (h.infl t ht)
        have h1 := hinf t ht
        rw [hr, ha'] at h1
        simp [Setup.transfer] at h1
    · rw [setPE_pe_ne s _ hqp] at ha hwq
      obtain ⟨h1, h2⟩ := h.rel2 q hq ha hwq
      exact ⟨fun r hr => by rw [harr r]; exact h1 r hr, h2⟩


/-- A call of `barrierAll` is the first or the second one of the pattern. -/
theorem barrier_phase {c : Setup} (hv : c.Valid) {iss : List Transfer} {st : PEState} {p : Nat}
    (hpe : PEInv c iss st p) {k : Prog} (hprog : st.prog = .op .barrierAll k) :
    (st.arrived = 0 ∧ c.transfer p ∉ iss ∧ k = c.fromPut p ∧ st.mem = c.atBarrier p) ∨
    (st.arrived = 1 ∧ st.waiting = false ∧ c.transfer p ∈ iss ∧ k = c.post p) := by
  have hle := hpe.le2
  rcases Nat.lt_or_ge st.arrived 1 with h0 | h1
  · left
    obtain ⟨_, hni, j, hj, hpr, hm⟩ := hpe.ph0 (by omega)
    cases hd : (c.pre p).drop j with
    | nil =>
      rw [hd, seq_nil, hprog] at hpr
      injection hpr with _ hk
      have hjl : (c.pre p).length ≤ j := by
        rw [List.drop_eq_nil_iff] at hd
        exact hd
      rw [List.take_of_length_le hjl] at hm
      exact ⟨by omega, hni, hk, hm⟩
    | cons x xs =>
      exfalso
      rw [hd, seq_cons, hprog] at hpr
      injection hpr with hx _
      have hmem : x ∈ c.pre p := List.mem_of_mem_drop (by rw [hd]; simp)
      have := hv.pre_local p x hmem
      rw [← hx] at this
      simp [Op.isLocal] at this
  · rcases Nat.lt_or_ge st.arrived 2 with h3 | h3
    · right
      rcases hpe.ph1 (by omega) with ⟨_, hq⟩ | ⟨hi, hq, hw⟩
      · rw [hprog, Setup.fromPut] at hq
        injection hq with hq _
        cases hq
      · rw [hprog] at hq
        injection hq with _ hk
        exact ⟨by omega, hw, hi, hk⟩
    · exfalso
      have hq := (hpe.ph2 (by omega)).2
      rw [hprog] at hq
      simp [Prog.quiet, Op.isQuiet] at hq

/-- A call of `barrierAll`. -/
theorem inv_barrier {c : Setup} {s : Sys} (hv : c.Valid) (h : Inv c s) {p : Nat}
    (hp : p < c.npes) {k : Prog} (hprog : (s.pe p).prog = .op .barrierAll k) :
    Inv c (s.setPE p ((s.pe p).enterBarrier k)) := by
  have hpe := h.pe p hp
  have hle := hpe.le2
  have hlog : ((s.pe p).log ++ [Ev.call .barrierAll]) ++ k.trace (c.oracle p) =
      (c.progOf p).trace (c.oracle p) := by
    rw [← hpe.log, hprog, trace_op]
    simp
  have hexit : k.exitCode (c.oracle p) = (c.progOf p).exitCode (c.oracle p) := by
    rw [← hpe.exit, hprog, exitCode_op]
  have hcase := barrier_phase hv hpe hprog
  have harr : ∀ q, (s.pe q).arrived ≤ ((s.setPE p ((s.pe p).enterBarrier k)).pe q).arrived := by
    intro q
    by_cases hq : q = p
    · rw [hq, setPE_pe_self, enterBarrier_arrived]
      exact Nat.le_succ _
    · rw [setPE_pe_ne s _ hq]
  have hmem : ∀ q, ((s.setPE p ((s.pe p).enterBarrier k)).pe q).mem = (s.pe q).mem := by
    intro q
    by_cases hq : q = p
    · rw [hq, setPE_pe_self, enterBarrier_mem]
    · rw [setPE_pe_ne s _ hq]
  refine ⟨h.npes, ?_, h.infl, h.iss, ?_, ?_, ?_⟩
  · intro q hq
    by_cases hqp : q = p
    · rw [hqp, setPE_pe_self]
      rcases hcase with ⟨h0, hni, hk, hm⟩ | ⟨h1, hw, hi, hk⟩
      · exact
          { le2 := by rw [enterBarrier_arrived]; omega
            ph0 := fun ha => by rw [enterBarrier_arrived] at ha; omega
            ph1 := fun _ => Or.inl ⟨hni, hk⟩
            ph2 := fun ha => by rw [enterBarrier_arrived] at ha; omega
            mem := fun _ => by
              rw [enterBarrier_mem, hm]
              exact ⟨rfl, Or.inl rfl⟩
            log := hlog
            exit := hexit }
      · exact
          { le2 := by rw [enterBarrier_arrived]; omega
            ph0 := fun ha => by rw [enterBarrier_arrived] at ha; omega
            ph1 := fun ha => by rw [enterBarrier_arrived] at ha; omega
            ph2 := fun _ => ⟨hi, by rw [enterBarrier_prog, hk]; exact hv.post_quiet p hp⟩
            mem := fun _ => hpe.mem (by omega)
            log := hlog
            exit := hexit }
    · rw [setPE_pe_ne s _ hqp]
      exact h.pe q hq
  · intro q hq hi
    rw [hmem]
    exact h.done q hq hi
  · intro q hq hcond r hr
    refine Nat.le_trans ?_ (harr r)
    by_cases hqp : q = p
    · rw [hqp, setPE_pe_self, enterBarrier_arrived, enterBarrier_waiting] at hcond
      rcases hcase with ⟨h0, -⟩ | ⟨h1, hw, -⟩
      · exfalso
        rcases hcond with ⟨_, hf⟩ | ha
        · cases hf
        · omega
      · exact h.rel1 p hp (Or.inl ⟨h1, hw⟩) r hr
    · rw [setPE_pe_ne s _ hqp] at hcond
      exact h.rel1 q hq hcond r hr
  · intro q hq ha hwq
    exfalso
    by_cases hqp : q = p
    · rw [hqp, setPE_pe_self, enterBarrier_waiting] at hwq
      cases hwq
    · rw [setPE_pe_ne s _ hqp] at ha hwq
      have := (h.rel2 q hq ha hwq).1 p hp
      rcases hcase with ⟨h0, -⟩ | ⟨h1, -⟩ <;> omega

/-- A put is the put of lines 42 to 45, issued between the two barriers. -/
theorem put_phase {c : Setup} (hv : c.Valid) {iss : List Transfer} {st : PEState} {p : Nat}
    (hpe : PEInv c iss st p) {d sb : Buf} {n : Nat} {pe : Int} {k : Prog}
    (hprog : st.prog = .op (.put d sb n pe) k) :
    st.arrived = 1 ∧ c.transfer p ∉ iss ∧ d = .dst ∧ sb = .src ∧ n = N ∧
      pe = target_pe p c.npes ∧ k = .op .barrierAll (c.post p) := by
  have hle := hpe.le2
  rcases Nat.lt_or_ge st.arrived 1 with h0 | h1
  · exfalso
    obtain ⟨_, hni, j, hj, hpr, hm⟩ := hpe.ph0 (by omega)
    cases hd : (c.pre p).drop j with
    | nil =>
      rw [hd, seq_nil, hprog] at hpr
      injection hpr with hx _
      cases hx
    | cons x xs =>
      rw [hd, seq_cons, hprog] at hpr
      injection hpr with hx _
      have hmem : x ∈ c.pre p := List.mem_of_mem_drop (by rw [hd]; simp)
      have := hv.pre_local p x hmem
      rw [← hx] at this
      simp [Op.isLocal] at this
  · rcases Nat.lt_or_ge st.arrived 2 with h3 | h3
    · rcases hpe.ph1 (by omega) with ⟨hni, hq⟩ | ⟨hi, hq, hw⟩
      · rw [hprog, Setup.fromPut] at hq
        injection hq with hq hk
        injection hq with h1 h2 h3 h4
        exact ⟨by omega, hni, h1, h2, h3, h4, hk⟩
      · rw [hprog] at hq
        injection hq with hq _
        cases hq
    · exfalso
      have hq := (hpe.ph2 (by omega)).2
      rw [hprog] at hq
      simp [Prog.quiet, Op.isQuiet] at hq


/-- The put of lines 42 to 45: it is enabled, and the invariant is kept. -/
theorem inv_put {c : Setup} {s : Sys} (hv : c.Valid) (h : Inv c s) {p : Nat}
    (hp : p < c.npes) {d sb : Buf} {n : Nat} {pe : Int} {k : Prog}
    (hw : (s.pe p).waiting = false) (hprog : (s.pe p).prog = .op (.put d sb n pe) k) :
    (0 ≤ pe ∧ pe < s.npes) ∧ Inv c (s.issue p d sb n pe k) := by
  have hpe := h.pe p hp
  have hle := hpe.le2
  have hlog : ((s.pe p).log ++ [Ev.call (.put d sb n pe)]) ++ k.trace (c.oracle p) =
      (c.progOf p).trace (c.oracle p) := by
    rw [← hpe.log, hprog, trace_op]
    simp
  have hexit : k.exitCode (c.oracle p) = (c.progOf p).exitCode (c.oracle p) := by
    rw [← hpe.exit, hprog, exitCode_op]
  obtain ⟨h1, hni, rfl, rfl, rfl, rfl, rfl⟩ := put_phase hv hpe hprog
  have hrange := target_range c p hp
  have ht : s.newTransfer p .dst .src N (target_pe p c.npes) = c.transfer p := by
    unfold Sys.newTransfer
    rw [h1, (hpe.mem (by omega)).1]
    rfl
  have hne : ∀ q, q ≠ p → c.transfer q ≠ c.transfer p := fun q hq he => hq (transfer_inj c he)
  have hpeq : ∀ q, q ≠ p → (Sys.issue s p .dst .src N (target_pe p c.npes)
      (.op .barrierAll (c.post p))).pe q = s.pe q := fun q hq => setPE_pe_ne s _ hq
  have hpep : (Sys.issue s p .dst .src N (target_pe p c.npes)
      (.op .barrierAll (c.post p))).pe p =
        (s.pe p).afterOp (.put .dst .src N (target_pe p c.npes)) (.op .barrierAll (c.post p)) :=
    setPE_pe_self s p _
  have hiss : (Sys.issue s p .dst .src N (target_pe p c.npes)
      (.op .barrierAll (c.post p))).issued = s.issued ++ [c.transfer p] := by
    rw [← ht]; rfl
  have hinf : (Sys.issue s p .dst .src N (target_pe p c.npes)
      (.op .barrierAll (c.post p))).inflight = s.inflight ++ [c.transfer p] := by
    rw [← ht]; rfl
  have harr : ∀ q, ((Sys.issue s p .dst .src N (target_pe p c.npes)
      (.op .barrierAll (c.post p))).pe q).arrived = (s.pe q).arrived := by
    intro q
    by_cases hq : q = p
    · rw [hq, hpep, afterOp_arrived]
    · rw [hpeq q hq]
  have hwait : ∀ q, ((Sys.issue s p .dst .src N (target_pe p c.npes)
      (.op .barrierAll (c.post p))).pe q).waiting = (s.pe q).waiting := by
    intro q
    by_cases hq : q = p
    · rw [hq, hpep, afterOp_waiting]
    · rw [hpeq q hq]
  have hmem : ∀ q, ((Sys.issue s p .dst .src N (target_pe p c.npes)
      (.op .barrierAll (c.post p))).pe q).mem = (s.pe q).mem := by
    intro q
    by_cases hq : q = p
    · rw [hq, hpep, afterOp_mem]; rfl
    · rw [hpeq q hq]
  refine ⟨by rw [h.npes]; exact hrange, ?_⟩
  refine ⟨h.npes, ?_, ?_, ?_, ?_, ?_, ?_⟩
  · intro q hq
    rw [hiss]
    by_cases hqp : q = p
    · rw [hqp, hpep]
      exact
        { le2 := hpe.le2
          ph0 := fun ha => by rw [afterOp_arrived] at ha; omega
          ph1 := fun _ => Or.inr ⟨by simp, rfl, hw⟩
          ph2 := fun ha => by rw [afterOp_arrived] at ha; omega
          mem := hpe.mem
          log := hlog
          exit := hexit }
    · rw [hpeq q hqp]
      have hq' := h.pe q hq
      have hiff : c.transfer q ∈ s.issued ++ [c.transfer p] ↔ c.transfer q ∈ s.issued := by
        simp [hne q hqp]
      exact
        { le2 := hq'.le2
          ph0 := fun ha => by
            obtain ⟨a, b, e⟩ := hq'.ph0 ha
            exact ⟨a, fun hc => b (hiff.1 hc), e⟩
          ph1 := fun ha => by
            rcases hq'.ph1 ha with ⟨a, b⟩ | ⟨a, b⟩
            · exact Or.inl ⟨fun hc => a (hiff.1 hc), b⟩
            · exact Or.inr ⟨hiff.2 a, b⟩
          ph2 := fun ha => ⟨hiff.2 (hq'.ph2 ha).1, (hq'.ph2 ha).2⟩
          mem := hq'.mem
          log := hq'.log
          exit := hq'.exit }
  · intro t ht'
    rw [hiss]
    rw [hinf] at ht'
    rcases List.mem_append.1 ht' with hl | hr
    · exact List.mem_append_left _ (h.infl t hl)
    · exact List.mem_append_right _ hr
  · intro t ht'
    rw [hiss] at ht'
    rcases List.mem_append.1 ht' with hl | hr
    · exact h.iss t hl
    · exact ⟨p, hp, by simpa using hr⟩
  · intro q hq hi
    rw [hiss] at hi
    rw [hinf, hmem]
    by_cases hqp : q = p
    · left; rw [hqp]; simp
    · have hi' : c.transfer q ∈ s.issued := by simpa [hne q hqp] using hi
      rcases h.done q hq hi' with hl | hr
      · exact Or.inl (List.mem_append_left _ hl)
      · exact Or.inr hr
  · intro q hq hcond r hr
    rw [harr q, hwait q] at hcond
    rw [harr r]
    exact h.rel1 q hq hcond r hr
  · intro q hq ha hwq
    exfalso
    rw [harr q] at ha
    rw [hwait q] at hwq
    have := (h.rel2 q hq ha hwq).1 p hp
    omega

/-- Completion of a put. -/
theorem inv_deliver {c : Setup} {s : Sys} (h : Inv c s) (j : Nat) : Inv c (s.deliver j) := by
  unfold Sys.deliver
  cases hj : s.inflight[j]? with
  | none => exact h
  | some t =>
    have htin : t ∈ s.inflight := List.getElem?_mem hj
    have htis : t ∈ s.issued := h.infl t htin
    obtain ⟨p, hp, rfl⟩ := h.iss t htis
    have hrel := issued_released h hp htis
    have hq : c.next p < c.npes := next_lt c p hp
    have hq1 : 1 ≤ (s.pe (c.next p)).arrived := h.rel1 p hp hrel _ hq
    have hpq := h.pe _ hq
    have hnorel2 : ∀ r < c.npes, (s.pe r).arrived = 2 → (s.pe r).waiting = false → False := by
      intro r hr ha hw
      rw [(h.rel2 r hr ha hw).2] at htin
      cases htin
    have hnew_dst : applyData (c.dataOf p) ((s.pe (c.next p)).mem .dst) =
        c.final (c.next p) .dst := by
      rw [final_next_dst c p hp]
      rcases (hpq.mem hq1).2 with hm | hm
      · rw [hm]
      · rw [hm, final_next_dst c p hp, applyData_idem]
    show Inv c { s.setPE (c.next p) ((s.pe (c.next p)).receive .dst (c.dataOf p)) with
                 inflight := s.inflight.eraseIdx j }
    have hpeq : ∀ r, r ≠ c.next p →
        (s.setPE (c.next p) ((s.pe (c.next p)).receive .dst (c.dataOf p))).pe r = s.pe r :=
      fun r hr => setPE_pe_ne s _ hr
    have harr : ∀ r, ((s.setPE (c.next p) ((s.pe (c.next p)).receive .dst (c.dataOf p))).pe
        r).arrived = (s.pe r).arrived := by
      intro r
      by_cases hr : r = c.next p
      · rw [hr, setPE_pe_self, receive_arrived]
      · rw [hpeq r hr]
    have hwait : ∀ r, ((s.setPE (c.next p) ((s.pe (c.next p)).receive .dst (c.dataOf p))).pe
        r).waiting = (s.pe r).waiting := by
      intro r
      by_cases hr : r = c.next p
      · rw [hr, setPE_pe_self, receive_waiting]
      · rw [hpeq r hr]
    refine ⟨h.npes, ?_, ?_, h.iss, ?_, ?_, ?_⟩
    · intro r hr
      show PEInv c s.issued ((s.setPE _ _).pe r) r
      by_cases hrq : r = c.next p
      · rw [hrq, setPE_pe_self]
        exact
          { le2 := hpq.le2
            ph0 := fun ha => by rw [receive_arrived] at ha; omega
            ph1 := hpq.ph1
            ph2 := hpq.ph2
            mem := fun _ => by
              rw [receive_mem]
              refine ⟨?_, Or.inr ?_⟩
              · rw [Function.update_noteq (by decide)]
                exact (hpq.mem hq1).1
              · rw [Function.update_same]
                exact hnew_dst
            log := hpq.log
            exit := hpq.exit }
      · rw [hpeq r hrq]
        exact h.pe r hr
    · intro t ht
      exact h.infl t (mem_of_mem_eraseIdx _ _ _ ht)
    · intro r hr hi
      show c.transfer r ∈ s.inflight.eraseIdx j ∨
        ((s.setPE _ _).pe (c.next r)).mem .dst = c.final (c.next r) .dst
      by_cases hrp : r = p
      · right
        rw [hrp, setPE_pe_self, receive_mem, Function.update_same]
        exact hnew_dst
      · rcases h.done r hr hi with hl | hm
        · exact Or.inl (mem_eraseIdx_of_ne _ _ _ _ hl hj (fun he => hrp (transfer_inj c he)))
        · right
          have hne : c.next r ≠ c.next p := by
            intro he
            apply hrp
            rw [← prev_next c r hr, ← prev_next c p hp, he]
          rw [hpeq _ hne]
          exact hm
    · intro r hr hcond q hq'
      rw [harr r, hwait r] at hcond
      rw [harr q]
      exact h.rel1 r hr hcond q hq'
    · intro r hr ha hw
      rw [harr r] at ha
      rw [hwait r] at hw
      exact absurd (hnorel2 r hr ha hw) id


/-- A step of a PE keeps the invariant. -/
theorem inv_stepPE {c : Setup} {s : Sys} (hv : c.Valid) (h : Inv c s) (p : Nat) :
    Inv c (s.stepPE p) := by
  unfold Sys.stepPE
  by_cases hp : p < s.npes
  · rw [if_pos hp]
    have hp' : p < c.npes := by rw [← h.npes]; exact hp
    cases hw : (s.pe p).waiting with
    | true =>
      rw [if_pos rfl]
      by_cases hr : s.canRelease (s.pe p).arrived = true
      · rw [if_pos hr]
        exact inv_release h hp' hw hr
      · rw [if_neg hr]
        exact h
    | false =>
      rw [if_neg (by simp)]
      cases hprog : (s.pe p).prog with
      | ret code => exact h
      | op o k =>
        cases o with
        | barrierAll => exact inv_barrier hv h hp' hprog
        | put d sb n pe =>
          obtain ⟨hrange, hinv⟩ := inv_put hv h hp' hw hprog
          simp only []
          rw [if_pos hrange]
          exact hinv
        | mpiInit => exact inv_local h hp' hprog rfl
        | hostInit => exact inv_local h hp' hprog rfl
        | myPE => exact inv_local h hp' hprog rfl
        | numPEs => exact inv_local h hp' hprog rfl
        | diag => exact inv_local h hp' hprog rfl
        | allocate b bytes => exact inv_local h hp' hprog rfl
        | write b i v => exact inv_local h hp' hprog rfl
        | resolve b pe => exact inv_local h hp' hprog rfl
        | printErrTarget pe i x g => exact inv_local h hp' hprog rfl
        | printErrMine pe i x g => exact inv_local h hp' hprog rfl
        | printSuccess => exact inv_local h hp' hprog rfl
        | free b => exact inv_local h hp' hprog rfl
        | finalize => exact inv_local h hp' hprog rfl
        | mpiFinalize => exact inv_local h hp' hprog rfl
      | load l i k =>
        cases l with
        | own b =>
          refine inv_load h hp' hprog _ ?_ hw
          intro hw' ha
          rw [frozen h hp' ha hw' p hp' b]
          rfl
        | remote b pe =>
          simp only []
          by_cases hrange : 0 ≤ pe ∧ pe < s.npes
          · rw [if_pos hrange]
            refine inv_load h hp' hprog _ ?_ hw
            intro hw' ha
            have hq : pe.toNat < c.npes := by
              have := hrange.2
              rw [h.npes] at this
              omega
            rw [frozen h hp' ha hw' _ hq b]
            rfl
          · rw [if_neg hrange]
            exact h
  · rw [if_neg hp]
    exact h

/-- Every scheduling decision keeps the invariant. -/
theorem inv_act {c : Setup} {s : Sys} (hv : c.Valid) (h : Inv c s) (a : Action) :
    Inv c (s.act a) := by
  cases a with
  | step p => exact inv_stepPE hv h p
  | deliver j => exact inv_deliver h j

/-- The invariant holds after every schedule. -/
theorem inv_runSched {c : Setup} (hv : c.Valid) (sched : List Action) :
    ∀ s, Inv c s → Inv c (runSched sched s) := by
  induction sched with
  | nil => exact fun s h => h
  | cons a as ih => exact fun s h => ih (s.act a) (inv_act hv h a)

/-- The invariant holds in every state of a run of the pattern. -/
theorem inv_run {c : Setup} (hv : c.Valid) (sched : List Action) :
    Inv c (runSched sched c.start) :=
  inv_runSched hv sched _ (inv_start c)


/-- In a run of the pattern a PE that has returned from two barriers sees the
final memory everywhere. -/
theorem final_of_returned {c : Setup} {s : Sys} (h : Inv c s) {q : Nat} (hq : q < c.npes)
    (hr : 1 < (s.pe q).returned) : ∀ r < c.npes, ∀ b, (s.pe r).mem b = c.final r b := by
  have hle := (h.pe q hq).le2
  unfold PEState.returned at hr
  cases hw : (s.pe q).waiting with
  | true =>
    rw [hw, if_pos rfl] at hr
    omega
  | false =>
    rw [hw, if_neg (by simp)] at hr
    exact frozen h hq (by omega) hw


/-! ## Every run can be completed -/

theorem sum_change (n p : Nat) (hp : p < n) (f g : Nat → Nat) (h : ∀ q, q ≠ p → g q = f q) :
    Finset.sum (Finset.range n) g + f p = Finset.sum (Finset.range n) f + g p := by
  have hmem : p ∈ Finset.range n := Finset.mem_range.2 hp
  rw [← Finset.add_sum_erase _ g hmem, ← Finset.add_sum_erase _ f hmem]
  have : Finset.sum ((Finset.range n).erase p) g = Finset.sum ((Finset.range n).erase p) f := by
    apply Finset.sum_congr rfl
    intro q hq
    exact h q (Finset.ne_of_mem_erase hq)
  rw [this]
  ring

/-- A step that changes only PE `p` and the puts in flight, and lowers their
joint work, lowers the work left in the run. -/
theorem work_lt {c : Setup} {s s' : Sys} (p : Nat) (hp : p < c.npes)
    (hother : ∀ q, q ≠ p → s'.pe q = s.pe q)
    (h : c.peWork p (s'.pe p) + s'.inflight.length < c.peWork p (s.pe p) + s.inflight.length) :
    c.work s' < c.work s := by
  unfold Setup.work
  have := sum_change c.npes p hp (fun q => c.peWork q (s.pe q)) (fun q => c.peWork q (s'.pe q))
    (fun q hq => by simp only []; rw [hother q hq])
  simp only [] at this
  omega

theorem seq_ne_ret (l : List Op) (o : Op) (k : Prog) (code : Int) :
    Prog.seq l (.op o k) ≠ .ret code := by
  cases l with
  | nil => intro h; cases h
  | cons x xs => intro h; cases h

/-- A PE whose program has returned has passed both barriers. -/
theorem arrived_of_ret {c : Setup} {iss : List Transfer} {st : PEState} {p : Nat}
    (hpe : PEInv c iss st p) {code : Int} (hprog : st.prog = .ret code) : st.arrived = 2 := by
  have hle := hpe.le2
  rcases Nat.lt_or_ge st.arrived 1 with h0 | h1
  · exfalso
    obtain ⟨_, _, j, _, hpr, _⟩ := hpe.ph0 (by omega)
    rw [hprog] at hpr
    exact seq_ne_ret _ _ _ _ hpr.symm
  · rcases Nat.lt_or_ge st.arrived 2 with h3 | h3
    · exfalso
      rcases hpe.ph1 (by omega) with ⟨_, hq⟩ | ⟨_, hq, _⟩
      · rw [hprog, Setup.fromPut] at hq; cases hq
      · rw [hprog] at hq; cases hq
    · omega

/-- A step of a PE that is not blocked and has not returned lowers the work left. -/
theorem step_progress {c : Setup} {s : Sys} (hv : c.Valid) (h : Inv c s) {p : Nat}
    (hp : p < c.npes) (hw : (s.pe p).waiting = false)
    (hnr : ∀ code, (s.pe p).prog ≠ .ret code) : c.work (s.stepPE p) < c.work s := by
  have hps : p < s.npes := by rw [h.npes]; exact hp
  have hpe := h.pe p hp
  unfold Sys.stepPE
  rw [if_pos hps, hw, if_neg (by simp)]
  have hop : ∀ (o : Op) (k : Prog), (s.pe p).prog = .op o k →
      c.work (s.setPE p ((s.pe p).afterOp o k)) < c.work s := by
    intro o k hprog
    refine work_lt p hp (fun q hq => setPE_pe_ne s _ hq) ?_
    rw [setPE_pe_self, setPE_inflight]
    unfold Setup.peWork
    rw [afterOp_prog, afterOp_waiting, hprog, trace_op, List.length_cons]
    omega
  have hload : ∀ (l : Loc) (i : Nat) (k : Int → Prog) (v : Int), (s.pe p).prog = .load l i k →
      v = c.oracle p l i → c.work (s.setPE p ((s.pe p).afterLoad l i v k)) < c.work s := by
    intro l i k v hprog hval
    refine work_lt p hp (fun q hq => setPE_pe_ne s _ hq) ?_
    rw [setPE_pe_self, setPE_inflight]
    unfold Setup.peWork
    rw [afterLoad_prog, afterLoad_waiting, hprog, trace_load, List.length_cons, hval]
    omega
  cases hprog : (s.pe p).prog with
  | ret code => exact absurd hprog (hnr code)
  | op o k =>
    cases o with
    | barrierAll =>
      show c.work (s.setPE p ((s.pe p).enterBarrier k)) < c.work s
      refine work_lt p hp (fun q hq => setPE_pe_ne s _ hq) ?_
      rw [setPE_pe_self, setPE_inflight]
      unfold Setup.peWork
      rw [enterBarrier_prog, enterBarrier_waiting, hw, hprog, trace_op, List.length_cons]
      simp only [if_true, Bool.false_eq_true, if_false]
      omega
    | put d sb n pe =>
      obtain ⟨hrange, -⟩ := inv_put hv h hp hw hprog
      simp only []
      rw [if_pos hrange]
      refine work_lt p hp (fun q hq => setPE_pe_ne s _ hq) ?_
      show c.peWork p ((s.setPE p _).pe p) + (s.inflight ++ [_]).length < _
      rw [setPE_pe_self, List.length_append, List.length_singleton]
      unfold Setup.peWork
      rw [afterOp_prog, afterOp_waiting, hprog, trace_op, List.length_cons]
      omega
    | mpiInit => exact hop _ _ hprog
    | hostInit => exact hop _ _ hprog
    | myPE => exact hop _ _ hprog
    | numPEs => exact hop _ _ hprog
    | diag => exact hop _ _ hprog
    | allocate b bytes => exact hop _ _ hprog
    | write b i v => exact hop _ _ hprog
    | resolve b pe => exact hop _ _ hprog
    | printErrTarget pe i x g => exact hop _ _ hprog
    | printErrMine pe i x g => exact hop _ _ hprog
    | printSuccess => exact hop _ _ hprog
    | free b => exact hop _ _ hprog
    | finalize => exact hop _ _ hprog
    | mpiFinalize => exact hop _ _ hprog
  | load l i k =>
    obtain ⟨ha, hrng, -⟩ := load_phase hpe hprog
    cases l with
    | own b =>
      refine hload _ i k _ hprog ?_
      rw [frozen h hp ha hw p hp b]
      rfl
    | remote b pe =>
      have hrange : 0 ≤ pe ∧ pe < (s.npes : Int) := by rw [h.npes]; exact hrng
      simp only []
      rw [if_pos hrange]
      refine hload _ i k _ hprog ?_
      have hq : pe.toNat < c.npes := by
        have := hrng.2
        omega
      rw [frozen h hp ha hw _ hq b]
      rfl

/-- The return of a blocked PE from its barrier lowers the work left. -/
theorem release_progress {c : Setup} {s : Sys} (h : Inv c s) {p : Nat} (hp : p < c.npes)
    (hw : (s.pe p).waiting = true) (hr : s.canRelease (s.pe p).arrived = true) :
    c.work (s.stepPE p) < c.work s := by
  have hps : p < s.npes := by rw [h.npes]; exact hp
  unfold Sys.stepPE
  rw [if_pos hps, if_pos hw, if_pos hr]
  refine work_lt p hp (fun q hq => setPE_pe_ne s _ hq) ?_
  rw [setPE_pe_self, setPE_inflight]
  unfold Setup.peWork
  rw [leaveBarrier_prog, leaveBarrier_waiting, hw]
  simp only [if_true, Bool.false_eq_true, if_false]
  omega

/-- Completion of a put lowers the work left. -/
theorem deliver_progress {c : Setup} {s : Sys} (hne : s.inflight ≠ []) :
    c.work (s.deliver 0) < c.work s := by
  unfold Sys.deliver
  cases hj : s.inflight[0]? with
  | none =>
    exfalso
    cases hl : s.inflight with
    | nil => exact hne hl
    | cons a l => rw [hl] at hj; simp at hj
  | some t =>
    show c.work { s.setPE t.target ((s.pe t.target).receive t.buf t.data) with
                  inflight := s.inflight.eraseIdx 0 } < c.work s
    have hlen : (s.inflight.eraseIdx 0).length + 1 = s.inflight.length := by
      cases hl : s.inflight with
      | nil => exact absurd hl hne
      | cons a l => simp
    have hwork : ∀ q, c.peWork q ((s.setPE t.target ((s.pe t.target).receive t.buf t.data)).pe q)
        = c.peWork q (s.pe q) := by
      intro q
      by_cases hq : q = t.target
      · rw [hq, setPE_pe_self]
        rfl
      · rw [setPE_pe_ne s _ hq]
    unfold Setup.work
    have hsum : Finset.sum (Finset.range c.npes)
        (fun q => c.peWork q ((s.setPE t.target ((s.pe t.target).receive t.buf t.data)).pe q)) =
        Finset.sum (Finset.range c.npes) (fun q => c.peWork q (s.pe q)) :=
      Finset.sum_congr rfl (fun q _ => hwork q)
    show Finset.sum (Finset.range c.npes)
        (fun q => c.peWork q ((s.setPE t.target ((s.pe t.target).receive t.buf t.data)).pe q)) +
        (s.inflight.eraseIdx 0).length < _
    rw [hsum]
    omega

theorem runSched_cons (a : Action) (as : List Action) (s : Sys) :
    runSched (a :: as) s = runSched as (s.act a) := rfl

theorem runSched_append (l r : List Action) (s : Sys) :
    runSched (l ++ r) s = runSched r (runSched l s) := by
  simp [runSched, List.foldl_append]

/-- When no PE can take a program step and nothing is in flight, a blocked PE
can return from its barrier. -/
theorem exists_release {c : Setup} {s : Sys} (h : Inv c s)
    (hidle : ∀ p < c.npes, (s.pe p).waiting = false → ∃ code, (s.pe p).prog = .ret code)
    (hnil : s.inflight = []) (hblocked : ∃ p < c.npes, (s.pe p).waiting = true) :
    ∃ p < c.npes, (s.pe p).waiting = true ∧ s.canRelease (s.pe p).arrived = true := by
  have hcan : ∀ k, (∀ q < c.npes, k ≤ (s.pe q).arrived) → s.canRelease k = true := by
    intro k hk
    simp only [Sys.canRelease, Bool.and_eq_true, List.all_eq_true, List.mem_range,
      decide_eq_true_eq]
    refine ⟨fun q hq => hk q (by rw [← h.npes]; exact hq), ?_⟩
    rw [hnil]
    intro t ht
    cases ht
  have hpos : ∀ q < c.npes, 1 ≤ (s.pe q).arrived := by
    intro q hq
    by_contra hc
    have h0 : (s.pe q).arrived = 0 := by omega
    obtain ⟨hwq, _, j, _, hpr, _⟩ := (h.pe q hq).ph0 h0
    obtain ⟨code, hret⟩ := hidle q hq hwq
    rw [hret] at hpr
    exact seq_ne_ret _ _ _ _ hpr.symm
  by_cases h1 : ∃ p < c.npes, (s.pe p).waiting = true ∧ (s.pe p).arrived = 1
  · obtain ⟨p, hp, hw, ha⟩ := h1
    exact ⟨p, hp, hw, hcan _ (fun q hq => by rw [ha]; exact hpos q hq)⟩
  · obtain ⟨p, hp, hw⟩ := hblocked
    have htwo : ∀ q < c.npes, (s.pe q).arrived = 2 := by
      intro q hq
      have hle := (h.pe q hq).le2
      have h1q := hpos q hq
      cases hwq : (s.pe q).waiting with
      | true =>
        by_contra hc
        exact h1 ⟨q, hq, hwq, by omega⟩
      | false =>
        obtain ⟨code, hret⟩ := hidle q hq hwq
        exact arrived_of_ret (h.pe q hq) hret
    exact ⟨p, hp, hw, hcan _ (fun q hq => by rw [htwo p hp, htwo q hq])⟩

/-- From every state of a run of the pattern some schedule leads to a state
in which every PE has returned. -/
theorem completes {c : Setup} (hv : c.Valid) :
    ∀ (n : Nat) (s : Sys), Inv c s → c.work s ≤ n →
      ∃ sched, (runSched sched s).finished c.npes := by
  intro n
  induction n with
  | zero =>
    intro s h hwork
    by_cases h1 : ∃ p < c.npes, (s.pe p).waiting = false ∧ ∀ code, (s.pe p).prog ≠ .ret code
    · obtain ⟨p, hp, hw, hnr⟩ := h1
      have := step_progress hv h hp hw hnr
      omega
    by_cases h2 : s.inflight = []
    · by_cases h3 : ∃ p < c.npes, (s.pe p).waiting = true
      · have hidle : ∀ p < c.npes, (s.pe p).waiting = false →
            ∃ code, (s.pe p).prog = .ret code := by
          intro p hp hw
          by_contra hc
          exact h1 ⟨p, hp, hw, fun code hcode => hc ⟨code, hcode⟩⟩
        obtain ⟨p, hp, hw, hr⟩ := exists_release h hidle h2 h3
        have := release_progress h hp hw hr
        omega
      · refine ⟨[], fun p hp => ?_⟩
        have hw : (s.pe p).waiting = false := by
          cases hwp : (s.pe p).waiting with
          | true => exact absurd ⟨p, hp, hwp⟩ h3
          | false => rfl
        refine ⟨hw, ?_⟩
        by_contra hc
        exact h1 ⟨p, hp, hw, fun code hcode => hc ⟨code, hcode⟩⟩
    · have := deliver_progress (c := c) h2
      omega
  | succ n ih =>
    intro s h hwork
    by_cases h1 : ∃ p < c.npes, (s.pe p).waiting = false ∧ ∀ code, (s.pe p).prog ≠ .ret code
    · obtain ⟨p, hp, hw, hnr⟩ := h1
      have hlt := step_progress hv h hp hw hnr
      obtain ⟨sched, hs⟩ := ih (s.stepPE p) (inv_stepPE hv h p) (by omega)
      exact ⟨.step p :: sched, hs⟩
    by_cases h2 : s.inflight = []
    · by_cases h3 : ∃ p < c.npes, (s.pe p).waiting = true
      · have hidle : ∀ p < c.npes, (s.pe p).waiting = false →
            ∃ code, (s.pe p).prog = .ret code := by
          intro p hp hw
          by_contra hc
          exact h1 ⟨p, hp, hw, fun code hcode => hc ⟨code, hcode⟩⟩
        obtain ⟨p, hp, hw, hr⟩ := exists_release h hidle h2 h3
        have hlt := release_progress h hp hw hr
        obtain ⟨sched, hs⟩ := ih (s.stepPE p) (inv_stepPE hv h p) (by omega)
        exact ⟨.step p :: sched, hs⟩
      · refine ⟨[], fun p hp => ?_⟩
        have hw : (s.pe p).waiting = false := by
          cases hwp : (s.pe p).waiting with
          | true => exact absurd ⟨p, hp, hwp⟩ h3
          | false => rfl
        refine ⟨hw, ?_⟩
        by_contra hc
        exact h1 ⟨p, hp, hw, fun code hcode => hc ⟨code, hcode⟩⟩
    · have hlt := deliver_progress (c := c) h2
      obtain ⟨sched, hs⟩ := ih (s.deliver 0) (inv_deliver h 0) (by omega)
      exact ⟨.deliver 0 :: sched, hs⟩

/-! ## `main` is an instance of the pattern -/

theorem seq_append (l r : List Op) (k : Prog) :
    Prog.seq (l ++ r) k = Prog.seq l (Prog.seq r k) := by
  induction l with
  | nil => rfl
  | cons o l ih => simp [seq_cons, ih]

theorem trace_seq (M : Loc → Nat → Int) (l : List Op) (k : Prog) :
    (Prog.seq l k).trace M = l.map Ev.call ++ k.trace M := by
  induction l with
  | nil => rfl
  | cons o l ih => simp [seq_cons, trace_op, ih]

theorem run_straight (t : Thread) (h : t.straight) (k : Prog) :
    t.run k = Prog.seq t.ops k := by
  induction t with
  | done => rfl
  | op o t ih => simp [Thread.run, Thread.ops, seq_cons, ih h]
  | load l i f _ => exact absurd h id

theorem forLoop_straight (body : Nat → Thread) (h : ∀ i, (body i).straight) (n i : Nat)
    (k : Prog) : forLoop body n i k = Prog.seq (loopOps body n i) k := by
  induction n generalizing i with
  | zero => rfl
  | succ n ih => simp [forLoop, loopOps, seq_append, run_straight _ (h i), ih]

theorem parLoop_straight (n : Nat) (sched : List Nat) (body : Nat → Thread)
    (h : ∀ i, (body i).straight) (k : Prog) :
    parLoop n sched body k = Prog.seq (parOps n sched body) k := by
  induction sched generalizing body with
  | nil => exact forLoop_straight body h n 0 k
  | cons j sched ih =>
    unfold parLoop parOps
    by_cases hj : j < n
    · rw [if_pos hj, if_pos hj]
      have hbj := h j
      cases hb : body j with
      | done => exact ih body h
      | op o t =>
        rw [hb] at hbj
        simp only [seq_cons]
        rw [ih]
        intro i
        by_cases hi : i = j
        · rw [hi, Function.update_same]; exact hbj
        · rw [Function.update_noteq hi]; exact h i
      | load l i f =>
        rw [hb] at hbj
        exact absurd hbj id
    · rw [if_neg hj, if_neg hj]
      exact ih body h

theorem straight_initThread (p : Int) (i : Nat) : (initThread p i).straight := trivial

theorem main_eq_skeleton (p npes : Int) (σ : LoopSched) (h : 2 ≤ npes) :
    main p npes σ = skeleton (mainPre p σ.init) p npes (afterSecondBarrier p npes σ) := by
  unfold main skeleton mainPre fromFirstBarrier
  rw [if_neg (by omega), parLoop_straight _ _ _ (straight_initThread p), seq_append]
  rfl

theorem mainSys_eq (npes : Nat) (mem0 : Nat → Buf → Nat → Int) (σ : Nat → LoopSched)
    (h : 2 ≤ npes) : mainSys npes mem0 σ = (mainSetup npes mem0 σ).start := by
  unfold mainSys Setup.start
  congr 1
  funext p
  exact main_eq_skeleton p npes (σ p) (by omega)

/-- The operations of a parallel loop of read-free iterations are its events. -/
theorem parOps_events (M : Loc → Nat → Int) (n : Nat) (sched : List Nat) (body : Nat → Thread)
    (h : ∀ i, (body i).straight) :
    (parOps n sched body).map Ev.call = parEvents M n sched body := by
  have h1 := trace_parLoop M n sched body (.ret 0)
  rw [parLoop_straight n sched body h, trace_seq, trace_ret, List.append_nil,
    List.append_nil] at h1
  exact h1

/-- The stores of the initialisation loop, however it interleaves. -/
theorem mem_initOps (p : Int) (sched : List Nat) (o : Op) :
    o ∈ parOps N sched (initThread p) ↔
      ∃ j, j < N ∧ (o = .write .src j (pattern p j) ∨ o = .write .dst j (-1)) := by
  have hmap : Ev.call o ∈ (parOps N sched (initThread p)).map Ev.call ↔
      o ∈ parOps N sched (initThread p) := by
    constructor
    · intro hm
      obtain ⟨o', ho', he⟩ := List.mem_map.1 hm
      cases he
      exact ho'
    · exact fun hm => List.mem_map.2 ⟨o, hm, rfl⟩
  rw [← hmap, parOps_events (fun _ _ => 0) N sched _ (straight_initThread p),
    (initPar_perm (fun _ _ => 0) p sched).mem_iff]
  constructor
  · intro hm
    obtain ⟨j, _, hj, hmem⟩ := mem_loopEvents_range hm
    simp only [initEvents, List.mem_cons, List.mem_singleton, List.not_mem_nil, or_false,
      Ev.call.injEq] at hmem
    exact ⟨j, by omega, hmem⟩
  · rintro ⟨j, hj, ho⟩
    refine mem_loopEvents_of (j := j) (Nat.zero_le _) (by omega) ?_
    simp only [initEvents, List.mem_cons, List.mem_singleton, List.not_mem_nil, or_false,
      Ev.call.injEq]
    exact ho

theorem quiet_run (m : Nat) (t : Thread) (ht : t.quiet m) (k : Prog) (hk : k.quiet m) :
    (t.run k).quiet m := by
  induction t with
  | done => exact hk
  | op o t ih => exact ⟨ht.1, ih ht.2⟩
  | load l i f ih => exact ⟨ht.1, fun v => ih v (ht.2 v)⟩

theorem quiet_forLoop (m : Nat) (body : Nat → Thread) (h : ∀ i, (body i).quiet m) (n i : Nat)
    (k : Prog) (hk : k.quiet m) : (forLoop body n i k).quiet m := by
  induction n generalizing i with
  | zero => exact hk
  | succ n ih => exact quiet_run m _ (h i) _ (ih (i + 1))

theorem quiet_parLoop (m n : Nat) (sched : List Nat) (body : Nat → Thread)
    (h : ∀ i, (body i).quiet m) (k : Prog) (hk : k.quiet m) :
    (parLoop n sched body k).quiet m := by
  induction sched generalizing body with
  | nil => exact quiet_forLoop m body h n 0 k hk
  | cons j sched ih =>
    unfold parLoop
    by_cases hj : j < n
    · rw [if_pos hj]
      have hbj := h j
      cases hb : body j with
      | done => exact ih body h
      | op o t =>
        rw [hb] at hbj
        refine ⟨hbj.1, ih _ ?_⟩
        intro i
        by_cases hi : i = j
        · rw [hi, Function.update_same]; exact hbj.2
        · rw [Function.update_noteq hi]; exact h i
      | load l i f =>
        rw [hb] at hbj
        refine ⟨hbj.1, fun v => ih _ ?_⟩
        intro r
        by_cases hr : r = j
        · rw [hr, Function.update_same]; exact hbj.2 v
        · rw [Function.update_noteq hr]; exact h r
    · rw [if_neg hj]
      exact ih body h

theorem quiet_afterSecondBarrier (p npes : Nat) (σ : LoopSched) (hp : p < npes) :
    (afterSecondBarrier p npes σ).quiet npes := by
  have hrange : 0 ≤ target_pe p npes ∧ target_pe p npes < npes := by
    rw [target_pe_eq p npes (by omega) (by omega)]
    split <;> omega
  unfold afterSecondBarrier
  refine ⟨rfl, ?_⟩
  apply quiet_parLoop
  · intro i
    refine ⟨hrange, fun v => ?_⟩
    by_cases hv : v = pattern p i
    · simp only [ne_eq, hv, not_true_eq_false, if_false]
      trivial
    · simp only [ne_eq, hv, not_false_eq_true, if_true]
      exact ⟨hrange, fun _ => ⟨rfl, trivial⟩⟩
  apply quiet_parLoop
  · intro i
    refine ⟨trivial, fun v => ?_⟩
    by_cases hv : v = pattern (previous_pe p npes) i
    · simp only [ne_eq, hv, not_true_eq_false, if_false]
      trivial
    · simp only [ne_eq, hv, not_false_eq_true, if_true]
      exact ⟨trivial, fun _ => ⟨rfl, trivial⟩⟩
  unfold epilogue
  by_cases h0 : (p : Int) = 0
  · simp only [h0, if_true]
    exact ⟨rfl, rfl, rfl, rfl, rfl, trivial⟩
  · simp only [h0, if_false]
    exact ⟨rfl, rfl, rfl, rfl, trivial⟩

theorem mainSetup_valid (npes : Nat) (mem0 : Nat → Buf → Nat → Int) (σ : Nat → LoopSched) :
    (mainSetup npes mem0 σ).Valid where
  pre_local := by
    intro p o ho
    simp only [mainSetup, mainPre, List.mem_append, List.mem_cons, List.mem_singleton,
      List.not_mem_nil, or_false] at ho
    rcases ho with (rfl | rfl | rfl | rfl | rfl | rfl) | ho
    · rfl
    · rfl
    · rfl
    · rfl
    · rfl
    · rfl
    · obtain ⟨j, _, rfl | rfl⟩ := (mem_initOps _ _ _).1 ho <;> rfl
  post_quiet := fun p hp => quiet_afterSecondBarrier p npes (σ p) hp

theorem execOps_cons (o : Op) (l : List Op) (m : Buf → Nat → Int) :
    execOps (o :: l) m = execOps l (execOp m o) := rfl

theorem execOp_other (m : Buf → Nat → Int) (o : Op) (b : Buf) (i : Nat)
    (h : ∀ v, o ≠ .write b i v) : execOp m o b i = m b i := by
  cases o with
  | write b' i' v' =>
    by_cases hb : b = b'
    · subst hb
      have hi : i ≠ i' := fun hi => h v' (by rw [hi])
      simp [execOp, Function.update_noteq hi]
    · simp [execOp, Function.update_noteq hb]
  | _ => rfl

theorem execOps_other (l : List Op) (m : Buf → Nat → Int) (b : Buf) (i : Nat)
    (h : ∀ o ∈ l, ∀ v, o ≠ .write b i v) : execOps l m b i = m b i := by
  induction l generalizing m with
  | nil => rfl
  | cons o l ih =>
    rw [execOps_cons, ih _ (fun o' ho' => h o' (List.mem_cons_of_mem _ ho')),
      execOp_other m o b i (h o (List.mem_cons_self _ _))]

/-- After straight-line code that stores to `b[i]`, and only ever the value
`v`, `b[i]` holds `v`. -/
theorem execOps_written (l : List Op) (m : Buf → Nat → Int) (b : Buf) (i : Nat) (v : Int)
    (hval : ∀ o ∈ l, ∀ v', o = .write b i v' → v' = v) (hex : Op.write b i v ∈ l) :
    execOps l m b i = v := by
  induction l generalizing m with
  | nil => cases hex
  | cons o l ih =>
    rw [execOps_cons]
    by_cases hl : Op.write b i v ∈ l
    · exact ih _ (fun o' ho' => hval o' (List.mem_cons_of_mem _ ho')) hl
    · have ho : o = .write b i v := by
        rcases List.mem_cons.1 hex with h | h
        · exact h.symm
        · exact absurd h hl
      rw [execOps_other l _ b i, ho]
      · simp [execOp]
      · intro o' ho' v' he
        have := hval o' (List.mem_cons_of_mem _ ho') v' he
        rw [he, this] at ho'
        exact hl ho'

/-- When PE `p` of `main` reaches the first barrier, `src[i]` holds the `int`
value of `p * 100 + i`, however the initialisation loop interleaved. -/
theorem main_atBarrier_src (npes : Nat) (mem0 : Nat → Buf → Nat → Int) (σ : Nat → LoopSched)
    (p i : Nat) (hi : i < N) :
    (mainSetup npes mem0 σ).atBarrier p .src i = pattern p i := by
  have h6 : ∀ (m : Buf → Nat → Int) (r : List Op),
      execOps ([.mpiInit, .hostInit, .myPE, .numPEs, .allocate .src (N * sizeofInt),
        .allocate .dst (N * sizeofInt)] ++ r) m = execOps r m := fun _ _ => rfl
  unfold Setup.atBarrier
  show execOps (mainPre p (σ p).init) (mem0 p) .src i = _
  unfold mainPre
  rw [h6]
  apply execOps_written
  · intro o ho v' he
    obtain ⟨j, _, hj | hj⟩ := (mem_initOps _ _ _).1 ho
    · rw [he] at hj
      obtain ⟨_, h2, h3⟩ := Op.write.inj hj
      rw [h3, h2]
    · rw [he] at hj
      exact absurd (Op.write.inj hj).1 (by decide)
  · exact (mem_initOps _ _ _).2 ⟨i, hi, Or.inl rfl⟩

theorem main_dataOf_getElem (npes : Nat) (mem0 : Nat → Buf → Nat → Int) (σ : Nat → LoopSched)
    (m : Nat → Int) (p i : Nat) (hi : i < N) :
    applyData ((mainSetup npes mem0 σ).dataOf p) m i = pattern p i := by
  have hlen : i < ((mainSetup npes mem0 σ).dataOf p).length := by
    simp [Setup.dataOf, hi]
  rw [applyData_lt _ _ _ hlen]
  simp [Setup.dataOf, main_atBarrier_src npes mem0 σ p i hi]

/-- When the reads of `dst` after the second barrier return the values the
validation loops expect, `main` prints no `[ERROR]` line. -/
theorem no_error_of_expected (M : Loc → Nat → Int) (σ : LoopSched) (p npes : Int)
    (hn : 2 ≤ npes)
    (h1 : ∀ i < N, M (.remote .dst (target_pe p npes)) i = pattern p i)
    (h2 : ∀ i < N, M (.own .dst) i = pattern (previous_pe p npes) i) :
    ∀ e ∈ (main p npes σ).trace M, e.isError = false := by
  intro e he
  rw [trace_main_of_ge M p npes σ hn] at he
  simp only [List.mem_append, List.mem_cons, List.mem_singleton, List.not_mem_nil,
    or_false] at he
  rcases he with ((((((he | he) | he) | he) | he) | he) | he)
  · rcases he with rfl | rfl | rfl | rfl | rfl | rfl <;> rfl
  · obtain ⟨b, j, v, rfl⟩ := mem_initLoop he
    rfl
  · rcases he with rfl | rfl | rfl | rfl <;> rfl
  · obtain ⟨j, _, hj, hmem⟩ :=
      mem_loopEvents_range ((targetPar_perm M p npes σ.target).mem_iff.1 he)
    unfold checkTargetEvents at hmem
    rw [if_neg (by simpa using h1 j (by omega))] at hmem
    simp only [List.mem_singleton] at hmem
    rw [hmem]
    rfl
  · obtain ⟨j, _, hj, hmem⟩ :=
      mem_loopEvents_range ((minePar_perm M p npes σ.mine).mem_iff.1 he)
    unfold checkMineEvents at hmem
    rw [if_neg (by simpa using h2 j (by omega))] at hmem
    simp only [List.mem_singleton] at hmem
    rw [hmem]
    rfl
  · split at he
    · simp only [List.mem_singleton] at he
      rw [he]
      rfl
    · simp at he
  · rcases he with rfl | rfl | rfl | rfl <;> rfl

/-- When the own `dst[i]` does not hold the value the second validation loop
expects, `main` prints the `[ERROR]` line of that element. -/
theorem error_of_mismatch (M : Loc → Nat → Int) (σ : LoopSched) (p npes : Int) (hn : 2 ≤ npes)
    (i : Nat) (hi : i < N) (h : M (.own .dst) i ≠ pattern (previous_pe p npes) i) :
    Ev.call (.printErrMine p i (pattern (previous_pe p npes) i) (M (.own .dst) i)) ∈
      (main p npes σ).trace M := by
  rw [trace_main_of_ge M p npes σ hn]
  simp only [List.mem_append]
  refine Or.inl (Or.inl (Or.inr ?_))
  refine (minePar_perm M p npes σ.mine).mem_iff.2
    (mem_loopEvents_of (j := i) (Nat.zero_le _) (by omega) ?_)
  unfold checkMineEvents
  rw [if_pos h]
  simp

/-! ## Runs of `main` -/

/-- Final content of `dst` on PE `q` in a run of `main`: the `int` values
stored by its predecessor on the ring. -/
theorem main_final_dst (npes : Nat) (mem0 : Nat → Buf → Nat → Int) (σ : Nat → LoopSched)
    (q i : Nat) (hi : i < N) :
    (mainSetup npes mem0 σ).final q .dst i = pattern ((mainSetup npes mem0 σ).prev q : Nat) i := by
  show applyData ((mainSetup npes mem0 σ).dataOf ((mainSetup npes mem0 σ).prev q)) _ i = _
  rw [main_dataOf_getElem npes mem0 σ _ _ i hi]

theorem main_final_next_dst (npes : Nat) (mem0 : Nat → Buf → Nat → Int) (σ : Nat → LoopSched)
    (p i : Nat) (hp : p < npes) (hi : i < N) :
    (mainSetup npes mem0 σ).final (target_pe p npes).toNat .dst i = pattern p i := by
  have h := final_next_dst (mainSetup npes mem0 σ) p hp
  have hnext : (mainSetup npes mem0 σ).next p = (target_pe p npes).toNat := rfl
  rw [hnext] at h
  rw [h, main_dataOf_getElem npes mem0 σ _ _ i hi]

/-- Up to `2^30` PEs line 64 computes the predecessor on the ring. -/
theorem prev_cast (npes : Nat) (mem0 : Nat → Buf → Nat → Int) (σ : Nat → LoopSched) (q : Nat)
    (hq : q < npes) (hmax : npes ≤ 1073741824) :
    (((mainSetup npes mem0 σ).prev q : Nat) : Int) = previous_pe q npes := by
  rw [previous_pe_eq q npes (by omega) (by omega) (by omega)]
  show (((if q = 0 then npes - 1 else q - 1 : Nat)) : Int) = _
  by_cases h : q = 0
  · rw [if_pos h, if_pos (by omega)]
    omega
  · rw [if_neg h, if_neg (by omega)]
    omega

/-- Over the integers, `(p - 1 + npes) % npes` is the predecessor on the ring. -/
theorem prev_math (p npes : Int) (h0 : 0 ≤ p) (h1 : p < npes) :
    (p - 1 + npes).tmod npes = if p = 0 then npes - 1 else p - 1 := by
  rw [Int.tmod_eq_emod (by omega) (by omega)]
  split
  · next h =>
    have hrw : p - 1 + npes = npes - 1 := by omega
    rw [hrw]
    exact Int.emod_eq_of_lt (by omega) (by omega)
  · next h =>
    have hlt : (p - 1) % npes = p - 1 := Int.emod_eq_of_lt (by omega) (by omega)
    rw [Int.add_emod_self, hlt]

/-- Every run of `main` on at least two PEs can be continued until every PE
has returned from the second barrier and then from `main` with exit code 0. -/
theorem main_completes (npes : Nat) (hn : 2 ≤ npes) (mem0 : Nat → Buf → Nat → Int)
    (σ : Nat → LoopSched) (sched : List Action) :
    ∃ rest, ∀ p < npes,
      ((runSched (sched ++ rest) (mainSys npes mem0 σ)).pe p).returned = 2 ∧
      ((runSched (sched ++ rest) (mainSys npes mem0 σ)).pe p).prog = .ret 0 := by
  rw [mainSys_eq npes mem0 σ hn]
  have hv := mainSetup_valid npes mem0 σ
  have h := inv_run hv sched
  obtain ⟨rest, hfin⟩ := completes hv _ _ h (Nat.le_refl _)
  refine ⟨rest, fun p hp => ?_⟩
  rw [runSched_append]
  have h' : Inv (mainSetup npes mem0 σ)
      (runSched rest (runSched sched (mainSetup npes mem0 σ).start)) :=
    inv_runSched hv rest _ h
  obtain ⟨hw, code, hret⟩ := hfin p hp
  have hpe := h'.pe p hp
  have ha := arrived_of_ret hpe hret
  refine ⟨?_, ?_⟩
  · unfold PEState.returned
    rw [hw, if_neg (by simp), ha]
  · have hex := hpe.exit
    have hprog : (mainSetup npes mem0 σ).progOf p = main p npes (σ p) :=
      (main_eq_skeleton p npes (σ p) (by omega)).symm
    rw [hret, hprog, exitCode_ret, exitCode_main, if_neg (by omega)] at hex
    rw [hret, hex]

/-- In a run of `main`, once the target of PE `p` has returned from the second
barrier its `dst[i]` holds the `int` value of `p * 100 + i`. -/
theorem main_run_next_dst (npes : Nat) (hn : 2 ≤ npes) (mem0 : Nat → Buf → Nat → Int)
    (σ : Nat → LoopSched) (sched : List Action) (p : Nat) (hp : p < npes)
    (hr : ((runSched sched (mainSys npes mem0 σ)).pe (target_pe p npes).toNat).returned = 2)
    (i : Nat) (hi : i < N) :
    ((runSched sched (mainSys npes mem0 σ)).pe (target_pe p npes).toNat).mem .dst i =
      pattern p i := by
  rw [mainSys_eq npes mem0 σ hn] at hr ⊢
  have h := inv_run (mainSetup_valid npes mem0 σ) sched
  have hq : (target_pe p npes).toNat < npes := next_lt (mainSetup npes mem0 σ) p hp
  rw [final_of_returned h hq (by omega) _ hq .dst]
  exact main_final_next_dst npes mem0 σ p i hp hi

/-- In a run of `main`, once PE `q` has returned from the second barrier its
`dst[i]` holds the `int` value of `r * 100 + i` for its predecessor `r`. -/
theorem main_run_dst (npes : Nat) (hn : 2 ≤ npes) (mem0 : Nat → Buf → Nat → Int)
    (σ : Nat → LoopSched) (sched : List Action) (q : Nat) (hq : q < npes)
    (hr : ((runSched sched (mainSys npes mem0 σ)).pe q).returned = 2)
    (i : Nat) (hi : i < N) :
    ((runSched sched (mainSys npes mem0 σ)).pe q).mem .dst i =
      pattern ((if q = 0 then npes - 1 else q - 1 : Nat) : Int) i := by
  rw [mainSys_eq npes mem0 σ hn] at hr ⊢
  have h := inv_run (mainSetup_valid npes mem0 σ) sched
  rw [final_of_returned h hq (by omega) q hq .dst]
  exact main_final_dst npes mem0 σ q i hi

/-- The log of a PE in a run of `main` is a prefix of the events of `main` on
the memory the PE reads after the second barrier. -/
theorem main_run_log (npes : Nat) (hn : 2 ≤ npes) (mem0 : Nat → Buf → Nat → Int)
    (σ : Nat → LoopSched) (sched : List Action) (q : Nat) (hq : q < npes) :
    ((runSched sched (mainSys npes mem0 σ)).pe q).log ++
      ((runSched sched (mainSys npes mem0 σ)).pe q).prog.trace
        ((mainSetup npes mem0 σ).oracle q) =
      (main q npes (σ q)).trace ((mainSetup npes mem0 σ).oracle q) := by
  rw [mainSys_eq npes mem0 σ hn]
  have h := inv_run (mainSetup_valid npes mem0 σ) sched
  have hlog := (h.pe q hq).log
  have hprog : (mainSetup npes mem0 σ).progOf q = main q npes (σ q) :=
    (main_eq_skeleton q npes (σ q) (by omega)).symm
  rw [hprog] at hlog
  exact hlog

/-- Up to `2^30` PEs no PE of a run of `main` prints an `[ERROR]` line. -/
theorem main_run_no_error (npes : Nat) (hn : 2 ≤ npes) (hmax : npes ≤ 1073741824)
    (mem0 : Nat → Buf → Nat → Int) (σ : Nat → LoopSched) (sched : List Action) (p : Nat)
    (hp : p < npes) :
    ∀ e ∈ ((runSched sched (mainSys npes mem0 σ)).pe p).log, e.isError = false := by
  intro e he
  have hmem : e ∈ (main p npes (σ p)).trace ((mainSetup npes mem0 σ).oracle p) := by
    rw [← main_run_log npes hn mem0 σ sched p hp]
    exact List.mem_append_left _ he
  refine no_error_of_expected _ (σ p) p npes (by omega) ?_ ?_ e hmem
  · intro i hi
    exact main_final_next_dst npes mem0 σ p i hp hi
  · intro i hi
    rw [← prev_cast npes mem0 σ p hp hmax]
    exact main_final_dst npes mem0 σ p i hi

/-- A PE of a run of `main` that has returned from `main`, and whose `dst[i]`
is not what line 67 expects, has printed the `[ERROR]` line of line 68. -/
theorem main_run_error (npes : Nat) (hn : 2 ≤ npes) (mem0 : Nat → Buf → Nat → Int)
    (σ : Nat → LoopSched) (sched : List Action) (q : Nat) (hq : q < npes) (code : Int)
    (hret : ((runSched sched (mainSys npes mem0 σ)).pe q).prog = .ret code)
    (i : Nat) (hi : i < N)
    (hne : pattern ((if q = 0 then npes - 1 else q - 1 : Nat) : Int) i ≠
      pattern (previous_pe q npes) i) :
    Ev.call (.printErrMine q i (pattern (previous_pe q npes) i)
        (pattern ((if q = 0 then npes - 1 else q - 1 : Nat) : Int) i)) ∈
      ((runSched sched (mainSys npes mem0 σ)).pe q).log := by
  have hlog := main_run_log npes hn mem0 σ sched q hq
  rw [hret, trace_ret, List.append_nil] at hlog
  rw [hlog]
  have hval : (mainSetup npes mem0 σ).oracle q (.own .dst) i =
      pattern ((if q = 0 then npes - 1 else q - 1 : Nat) : Int) i :=
    main_final_dst npes mem0 σ q i hi
  have := error_of_mismatch ((mainSetup npes mem0 σ).oracle q) (σ q) q npes (by omega) i hi
    (by rw [hval]; exact hne)
  rw [hval] at this
  exact this

/-! ## Claims about the PEs side by side -/

/-- C1, the counterexamples. The claim as written, for every `npes >= 2` and
with the values `p * 100 + i` and `(q - 1 + npes) % npes` of integer
arithmetic, fails on the program's 32-bit `int`. On 21474838 PEs, in a run in
which every PE has returned from the second barrier, `dst[0]` on PE
`(21474837 + 1) % 21474838 = 0` is `-2147483596`, not `21474837 * 100 + 0`:
the product of line 33 overflows. On `2^30 + 1` PEs, a run in which every PE
has returned from `main` has the `[ERROR]` line of line 68 in the output of PE
`2^30`: the sum `my_pe - 1 + npes` of line 64 overflows, so that line 67
expects `100` where PE `2^30 - 1` has put `-100`. -/
theorem round_trip_overflow :
    (∃ sched,
      (∀ p < 21474838, ((runSched sched
        (mainSys 21474838 (fun _ _ _ => 0) (fun _ => LoopSched.inOrder))).pe p).returned = 2) ∧
      ((runSched sched (mainSys 21474838 (fun _ _ _ => 0) (fun _ => LoopSched.inOrder))).pe
        (target_pe 21474837 21474838).toNat).mem .dst 0 = -2147483596 ∧
      (-2147483596 : Int) ≠ 21474837 * 100 + 0) ∧
    (∃ sched,
      (∀ p < 1073741825, ((runSched sched
        (mainSys 1073741825 (fun _ _ _ => 0) (fun _ => LoopSched.inOrder))).pe p).returned = 2) ∧
      Ev.call (.printErrMine 1073741824 0 100 (-100)) ∈
        ((runSched sched (mainSys 1073741825 (fun _ _ _ => 0)
          (fun _ => LoopSched.inOrder))).pe 1073741824).log ∧
      (Ev.call (.printErrMine 1073741824 0 100 (-100))).isError = true) := by
  constructor
  · obtain ⟨rest, h⟩ := main_completes 21474838 (by decide) (fun _ _ _ => 0)
      (fun _ => LoopSched.inOrder) []
    rw [List.nil_append] at h
    refine ⟨rest, fun p hp => (h p hp).1, ?_, by decide⟩
    have hv := main_run_next_dst 21474838 (by decide) (fun _ _ _ => 0)
      (fun _ => LoopSched.inOrder) rest 21474837 (by decide) (h _ (by decide)).1 0 (by decide)
    have hc : ((21474837 : Nat) : Int) = 21474837 := rfl
    have hc' : ((21474838 : Nat) : Int) = 21474838 := rfl
    rw [hc, hc'] at hv
    rw [hv]
    decide
  · obtain ⟨rest, h⟩ := main_completes 1073741825 (by decide) (fun _ _ _ => 0)
      (fun _ => LoopSched.inOrder) []
    rw [List.nil_append] at h
    refine ⟨rest, fun p hp => (h p hp).1, ?_, rfl⟩
    have he := main_run_error 1073741825 (by decide) (fun _ _ _ => 0)
      (fun _ => LoopSched.inOrder) rest 1073741824 (by decide) 0 (h _ (by decide)).2 0
      (by decide) (by decide)
    have h1 : pattern (previous_pe ((1073741824 : Nat) : Int) ((1073741825 : Nat) : Int)) 0 =
        100 := by decide
    have h2 : pattern ((if (1073741824 : Nat) = 0 then 1073741825 - 1
        else 1073741824 - 1 : Nat) : Int) 0 = -100 := by decide
    have hc : ((1073741824 : Nat) : Int) = 1073741824 := rfl
    rw [h1, h2, hc] at he
    exact he

/-- C1, amended with the bounds of the 32-bit `int`. In every run of `main` on
`npes >= 2` PEs, whatever the heaps hold at the start, however the iterations
of the three device loops interleave and under every schedule of the PEs: once
PE `(p + 1) % npes` has returned from the second barrier its `dst[i]` is the
`int` value of `p * 100 + i` for `i` in `[0, 9]`; for `npes <= 2^30` every PE
`q` that has returned from the second barrier holds the `int` value of
`previous_pe * 100 + i` in `dst[i]`, and no PE ever prints an `[ERROR]` line;
for `npes <= 21474837` these values are `p * 100 + i` and
`((q - 1 + npes) % npes) * 100 + i` as the claim has them; and the run can be
continued until every PE has returned from the second barrier and from `main`,
with exit code 0. -/
theorem ring_round_trip (npes : Nat) (hn : 2 ≤ npes) (mem0 : Nat → Buf → Nat → Int)
    (σ : Nat → LoopSched) (sched : List Action) :
    (∀ p < npes,
      ((runSched sched (mainSys npes mem0 σ)).pe (target_pe p npes).toNat).returned = 2 →
      ∀ i < N, ((runSched sched (mainSys npes mem0 σ)).pe (target_pe p npes).toNat).mem .dst i =
        pattern p i) ∧
    (npes ≤ 1073741824 →
      (∀ q < npes, ((runSched sched (mainSys npes mem0 σ)).pe q).returned = 2 →
        ∀ i < N, ((runSched sched (mainSys npes mem0 σ)).pe q).mem .dst i =
          pattern (previous_pe q npes) i) ∧
      (∀ p < npes, ∀ e ∈ ((runSched sched (mainSys npes mem0 σ)).pe p).log,
        e.isError = false)) ∧
    (npes ≤ 21474837 →
      (∀ p < npes,
        ((runSched sched (mainSys npes mem0 σ)).pe (target_pe p npes).toNat).returned = 2 →
        ∀ i < N,
          ((runSched sched (mainSys npes mem0 σ)).pe (target_pe p npes).toNat).mem .dst i =
            (p : Int) * 100 + i) ∧
      (∀ q < npes, ((runSched sched (mainSys npes mem0 σ)).pe q).returned = 2 →
        ∀ i < N, ((runSched sched (mainSys npes mem0 σ)).pe q).mem .dst i =
          ((q : Int) - 1 + npes).tmod npes * 100 + i)) ∧
    (∃ rest, ∀ p < npes,
      ((runSched (sched ++ rest) (mainSys npes mem0 σ)).pe p).returned = 2 ∧
      ((runSched (sched ++ rest) (mainSys npes mem0 σ)).pe p).prog = .ret 0) := by
  refine ⟨?_, ?_, ?_, main_completes npes hn mem0 σ sched⟩
  · intro p hp hr i hi
    exact main_run_next_dst npes hn mem0 σ sched p hp hr i hi
  · intro hmax
    refine ⟨?_, fun p hp => main_run_no_error npes hn hmax mem0 σ sched p hp⟩
    intro q hq hr i hi
    rw [main_run_dst npes hn mem0 σ sched q hq hr i hi]
    exact congrArg (fun x => pattern x i) (prev_cast npes mem0 σ q hq hmax)
  · intro hmax
    constructor
    · intro p hp hr i hi
      rw [main_run_next_dst npes hn mem0 σ sched p hp hr i hi]
      exact pattern_eq p i (by omega) (by omega) hi
    · intro q hq hr i hi
      rw [main_run_dst npes hn mem0 σ sched q hq hr i hi, prev_math q npes (by omega) (by omega)]
      have hc : (((if q = 0 then npes - 1 else q - 1 : Nat)) : Int) =
          if (q : Int) = 0 then (npes : Int) - 1 else (q : Int) - 1 := by
        by_cases h : q = 0
        · rw [if_pos h, if_pos (by omega)]
          omega
        · rw [if_neg h, if_neg (by omega)]
          omega
      rw [hc]
      refine pattern_eq _ i ?_ ?_ hi
      · split <;> omega
      · split <;> omega

set_option maxHeartbeats 4000000 in
set_option maxRecDepth 100000 in
theorem ring_round_trip_witness :
    ((runSched demoSchedule (mainSys 4 (fun _ _ i => 7 + i) demoLoops)).pe
      (target_pe 3 4).toNat).returned = 2 ∧
    ((runSched demoSchedule (mainSys 4 (fun _ _ i => 7 + i) demoLoops)).pe
      (target_pe 3 4).toNat).mem .dst 9 = pattern 3 9 ∧
    ((runSched demoSchedule (mainSys 4 (fun _ _ i => 7 + i) demoLoops)).pe
      (target_pe 3 4).toNat).mem .dst 9 = 3 * 100 + 9 ∧
    ((runSched demoSchedule (mainSys 4 (fun _ _ i => 7 + i) demoLoops)).pe 2).returned = 2 ∧
    ((runSched demoSchedule (mainSys 4 (fun _ _ i => 7 + i) demoLoops)).pe 2).mem .dst 0 =
      pattern (previous_pe 2 4) 0 ∧
    ((runSched demoSchedule (mainSys 4 (fun _ _ i => 7 + i) demoLoops)).pe 2).mem .dst 0 =
      ((2 : Int) - 1 + 4).tmod 4 * 100 + 0 ∧
    Ev.call .mpiFinalize ∈
      ((runSched demoSchedule (mainSys 4 (fun _ _ i => 7 + i) demoLoops)).pe 1).log ∧
    (Ev.call .mpiFinalize).isError = false :=
  have h1 : ((runSched demoSchedule (mainSys 4 (fun _ _ i => 7 + i) demoLoops)).pe
      (target_pe 3 4).toNat).returned = 2 := by decide
  have h2 : ((runSched demoSchedule (mainSys 4 (fun _ _ i => 7 + i) demoLoops)).pe 2).returned
      = 2 := by decide
  have h3 : Ev.call .mpiFinalize ∈
      ((runSched demoSchedule (mainSys 4 (fun _ _ i => 7 + i) demoLoops)).pe 1).log := by
    decide
  ⟨h1,
   (ring_round_trip 4 (by decide) (fun _ _ i => 7 + i) demoLoops demoSchedule).1 3 (by decide)
     h1 9 (by decide),
   ((ring_round_trip 4 (by decide) (fun _ _ i => 7 + i) demoLoops demoSchedule).2.2.1
     (by decide)).1 3 (by decide) h1 9 (by decide),
   h2,
   ((ring_round_trip 4 (by decide) (fun _ _ i => 7 + i) demoLoops demoSchedule).2.1
     (by decide)).1 2 (by decide) h2 0 (by decide),
   ((ring_round_trip 4 (by decide) (fun _ _ i => 7 + i) demoLoops demoSchedule).2.2.1
     (by decide)).2 2 (by decide) h2 0 (by decide),
   h3,
   ((ring_round_trip 4 (by decide) (fun _ _ i => 7 + i) demoLoops demoSchedule).2.1
     (by decide)).2 1 (by decide) _ h3⟩


/-- C3: in every run of the barrier / put / barrier pattern of lines 37 to 48,
on at least two PEs, with arbitrary local code before the first barrier (so
arbitrary contents of `src`), arbitrary initial memory and under every
schedule: a put that has been issued goes from a PE `p` to another PE `q`,
was issued before `p` called the second barrier, carries the contents `src`
had on `p`, and once the matching (second) barrier has returned on `q` the
memory of `q` holds exactly the data of the put; and the run can be continued
so that this barrier does return on `q`. -/
theorem visibility_law (c : Setup) (hv : c.Valid) (hn : 2 ≤ c.npes) (sched : List Action)
    (t : Transfer) (ht : t ∈ (runSched sched c.start).issued) :
    t.source < c.npes ∧ t.target < c.npes ∧ t.source ≠ t.target ∧ t.epoch = 1 ∧
    t.data = (List.range N).map (c.atBarrier t.source .src) ∧
    (t.epoch < ((runSched sched c.start).pe t.target).returned →
      ∀ i (hi : i < t.data.length),
        ((runSched sched c.start).pe t.target).mem t.buf i = t.data[i]) ∧
    (∃ rest, t.epoch < ((runSched (sched ++ rest) c.start).pe t.target).returned) := by
  have h := inv_run hv sched
  obtain ⟨p, hp, rfl⟩ := h.iss t ht
  have hne : p ≠ c.next p := by
    rw [next_eq c p hp]; split <;> omega
  refine ⟨hp, next_lt c p hp, hne, rfl, rfl, ?_, ?_⟩
  · intro hr i hi
    have hfin := final_of_returned h (next_lt c p hp) hr _ (next_lt c p hp) .dst
    have hi' : i < (c.dataOf p).length := hi
    show ((runSched sched c.start).pe (c.next p)).mem .dst i = (c.dataOf p)[i]
    rw [hfin, final_next_dst c p hp, applyData_lt _ _ _ hi']
  · obtain ⟨rest, hfin⟩ := completes hv _ _ h (Nat.le_refl _)
    refine ⟨rest, ?_⟩
    rw [runSched_append]
    obtain ⟨hw, code, hret⟩ := hfin _ (next_lt c p hp)
    have ha := arrived_of_ret ((inv_runSched hv rest _ h).pe _ (next_lt c p hp)) hret
    show 1 < ((runSched rest (runSched sched c.start)).pe (c.next p)).returned
    unfold PEState.returned
    rw [hw, if_neg (by simp), ha]
    decide

set_option maxRecDepth 100000 in
theorem visibility_law_witness :
    ({ source := 1, target := 0, buf := .dst, data := [42, -7, 1002, 1003, 1004, 1005, 1006,
        1007, 1008, 1009], epoch := 1 } : Transfer) ∈
      (runSched demoSetupSchedule demoSetup.start).issued ∧
    1 < ((runSched demoSetupSchedule demoSetup.start).pe 0).returned ∧
    ((runSched demoSetupSchedule demoSetup.start).pe 0).mem .dst 0 = 42 ∧
    ((runSched demoSetupSchedule demoSetup.start).pe 0).mem .dst 1 = -7 :=
  have hv : demoSetup.Valid :=
    { pre_local := by
        intro p o ho
        simp only [demoSetup, List.mem_cons, List.mem_singleton, List.not_mem_nil,
          or_false] at ho
        rcases ho with rfl | rfl | rfl <;> rfl
      post_quiet := fun _ _ => ⟨trivial, fun _ => trivial⟩ }
  have hmem : ({ source := 1, target := 0, buf := .dst, data := [42, -7, 1002, 1003, 1004,
      1005, 1006, 1007, 1008, 1009], epoch := 1 } : Transfer) ∈
        (runSched demoSetupSchedule demoSetup.start).issued := by decide
  have hret : 1 < ((runSched demoSetupSchedule demoSetup.start).pe 0).returned := by decide
  ⟨hmem, hret,
   (visibility_law demoSetup hv (by decide) demoSetupSchedule _ hmem).2.2.2.2.2.1 hret 0
     (by decide),
   (visibility_law demoSetup hv (by decide) demoSetupSchedule _ hmem).2.2.2.2.2.1 hret 1
     (by decide)⟩


end GpuShmem
